import Mathlib

/-!
Quant-Pricer-Engine-CPP: a verification development.

Shallow embedding of `include/Xoshiro.hpp`, `include/ParallelUtils.hpp`,
`src/Payoff.cpp` and `src/Engine.cpp`, followed by the theorems about them.

Conventions.
* A `uint64_t` is a natural number below `2 ^ 64`; every operation that can
  leave that range in C++ (`+`, `*`, `<<`) is followed by `u64`.
* A `double` is an element of a linear ordered field `R`; `std::exp` and
  `std::sqrt` are parameters `exp sqrt : R → R`, instantiated with `Real.exp`
  and `Real.sqrt` where their properties are needed.
* `size_t` and `long long` loop counters of the engine are natural numbers
  (no wrap-around; the cast of `paths` to `long long` is exact below `2 ^ 63`).
* The payoffs and the engine are embedded a second time, in the namespace `IEEE`, on
  `Double R`: a number of `R`, an infinity or a NaN, with the arithmetic and the
  comparisons of the special values (`std::sqrt` of a negative number and `0 * inf`
  are NaN, a comparison with a NaN is false). On numbers, with `expiry >= 0`,
  `steps >= 1`, `paths >= 1` and `spot != 0`, the two embeddings return the same
  values (`IEEE.calculatePrice_of`, `IEEE.calculateAll_of`).
-/

namespace QuantPricer

/-! ## Definitions -/

/-- Truncation of a natural number to a `uint64_t`. -/
def u64 (x : Nat) : Nat := x % 2 ^ 64

/-- The loop `for (i = 0; i < n; ++i) st = body i st`. -/
def forLoop {σ : Type} : Nat → (Nat → σ → σ) → σ → σ
  | 0, _, st => st
  | n + 1, body, st => body n (forLoop n body st)

/-- The loop `for (i = i0; i < n; i += stride) st = body i st`. -/
def stridedLoop {σ : Type} (stride : Nat) (hs : 0 < stride) (n : Nat)
    (body : Nat → σ → σ) (i : Nat) (st : σ) : σ :=
  if i < n then stridedLoop stride hs n body (i + stride) (body i st) else st
termination_by n - i
decreasing_by omega

/-- The generator of `Xoshiro.hpp`: the array `uint64_t s[4]`. -/
structure Xoshiro256PlusPlus where
  s0 : Nat
  s1 : Nat
  s2 : Nat
  s3 : Nat
deriving DecidableEq, Repr

namespace Xoshiro256PlusPlus

/-- Every word of the state is a `uint64_t`. -/
def WF (g : Xoshiro256PlusPlus) : Prop :=
  g.s0 < 2 ^ 64 ∧ g.s1 < 2 ^ 64 ∧ g.s2 < 2 ^ 64 ∧ g.s3 < 2 ^ 64

instance (g : Xoshiro256PlusPlus) : Decidable g.WF := by
  unfold WF; infer_instance

/-- The function `rotl(x, k)`: `(x << k) | (x >> (64 - k))` on `uint64_t`. -/
def rotl (x k : Nat) : Nat := u64 (x <<< k) ||| (x >>> (64 - k))

/-- The constructor `Xoshiro256PlusPlus(uint64_t seed)`. -/
def init (seed : Nat) : Xoshiro256PlusPlus :=
  let z := u64 (seed + 0x9e3779b97f4a7c15)
  let z := u64 ((z ^^^ (z >>> 30)) * 0xbf58476d1ce4e5b9)
  let z := u64 ((z ^^^ (z >>> 27)) * 0x94d049bb133111eb)
  let s0 := z ^^^ (z >>> 31)
  let z := u64 (s0 + 0x9e3779b97f4a7c15)
  let z := u64 ((z ^^^ (z >>> 30)) * 0xbf58476d1ce4e5b9)
  let z := u64 ((z ^^^ (z >>> 27)) * 0x94d049bb133111eb)
  let s1 := z ^^^ (z >>> 31)
  let z := u64 (s1 + 0x9e3779b97f4a7c15)
  let z := u64 ((z ^^^ (z >>> 30)) * 0xbf58476d1ce4e5b9)
  let z := u64 ((z ^^^ (z >>> 27)) * 0x94d049bb133111eb)
  let s2 := z ^^^ (z >>> 31)
  let z := u64 (s2 + 0x9e3779b97f4a7c15)
  let z := u64 ((z ^^^ (z >>> 30)) * 0xbf58476d1ce4e5b9)
  let z := u64 ((z ^^^ (z >>> 27)) * 0x94d049bb133111eb)
  let s3 := z ^^^ (z >>> 31)
  ⟨s0, s1, s2, s3⟩

/-- The call `operator()()`: the returned value and the state it leaves. -/
def next (g : Xoshiro256PlusPlus) : Nat × Xoshiro256PlusPlus :=
  let result := u64 (rotl (u64 (g.s0 + g.s3)) 23 + g.s0)
  let t := u64 (g.s1 <<< 17)
  let s2 := g.s2 ^^^ g.s0
  let s3 := g.s3 ^^^ g.s1
  let s1 := g.s1 ^^^ s2
  let s0 := g.s0 ^^^ s3
  let s2 := s2 ^^^ t
  let s3 := rotl s3 45
  (result, ⟨s0, s1, s2, s3⟩)

/-- The state left by one call of `operator()`. -/
def step (g : Xoshiro256PlusPlus) : Xoshiro256PlusPlus := (next g).2

/-- The table `JUMP[]` of `jump()`. -/
def JUMP : List Nat :=
  [0x180ec6d33cfd0ebb, 0xd5a61266f0c9392c, 0xa9582618e03fc9aa, 0x39abdc4529b1661c]

/-- The locals of `jump()`: the accumulators `s0..s3` and the generator. -/
structure JumpLoop where
  acc : Xoshiro256PlusPlus
  gen : Xoshiro256PlusPlus
deriving DecidableEq, Repr

/-- The body of the inner loop of `jump()` for word `i` and bit `b`. -/
def jumpBody (i b : Nat) (l : JumpLoop) : JumpLoop :=
  let acc :=
    if JUMP.getD i 0 &&& u64 (1 <<< b) ≠ 0 then
      ⟨l.acc.s0 ^^^ l.gen.s0, l.acc.s1 ^^^ l.gen.s1,
        l.acc.s2 ^^^ l.gen.s2, l.acc.s3 ^^^ l.gen.s3⟩
    else l.acc
  ⟨acc, step l.gen⟩

/-- The method `jump()`. -/
def jump (g : Xoshiro256PlusPlus) : Xoshiro256PlusPlus :=
  (forLoop JUMP.length (fun i l => forLoop 64 (fun b l => jumpBody i b l) l)
    ⟨⟨0, 0, 0, 0⟩, g⟩).acc

/-- The mixing function of the seeding algorithm, as the specification writes
it: `z=(x+C1); z=(z^(z>>30))*C2; z=(z^(z>>27))*C3; return z^(z>>31)`. -/
def mix (x : Nat) : Nat :=
  let z := (x + 0x9e3779b97f4a7c15) % 2 ^ 64
  let z := ((z ^^^ (z >>> 30)) * 0xbf58476d1ce4e5b9) % 2 ^ 64
  let z := ((z ^^^ (z >>> 27)) * 0x94d049bb133111eb) % 2 ^ 64
  z ^^^ (z >>> 31)

/-- The values returned by `n` successive calls of `operator()` on a generator, the
first call first, and the state that they leave. -/
def generate : Nat → Xoshiro256PlusPlus → List Nat × Xoshiro256PlusPlus
  | 0, g => ([], g)
  | n + 1, g =>
    let r := next g
    let rest := generate n r.2
    (r.1 :: rest.1, rest.2)

end Xoshiro256PlusPlus

/-- The value `f a`, the number `a` being computed before `f` is applied. -/
def strict {β : Type} (a : Nat) (f : Nat → β) : β :=
  match a with
  | 0 => f 0
  | k + 1 => f (k + 1)

namespace Xoshiro256PlusPlus

/-- Word by word exclusive or of two states. -/
def xorState (a b : Xoshiro256PlusPlus) : Xoshiro256PlusPlus :=
  ⟨a.s0 ^^^ b.s0, a.s1 ^^^ b.s1, a.s2 ^^^ b.s2, a.s3 ^^^ b.s3⟩

/-- The all-zero state. -/
def zero : Xoshiro256PlusPlus := ⟨0, 0, 0, 0⟩

/-- The value `f g`, the four words of `g` being computed before `f` is applied. -/
def strictState {β : Type} (g : Xoshiro256PlusPlus) (f : Xoshiro256PlusPlus → β) : β :=
  strict g.s0 fun a => strict g.s1 fun b => strict g.s2 fun c => strict g.s3 fun d =>
    f ⟨a, b, c, d⟩

/-- The state `p(T) g`, where `T` is `step` and `p` the polynomial over GF(2) whose
coefficients are the `n` low bits of the number `p` (Horner's rule). -/
def evalPoly : Nat → Nat → Xoshiro256PlusPlus → Xoshiro256PlusPlus
  | 0, _, _ => zero
  | n + 1, p, g => strict p fun p => strictState (evalPoly n (p / 2) g) fun h =>
      xorState (if p.testBit 0 then g else zero) (step h)

/-- The characteristic polynomial of `step` on the 256 bits of the state. -/
def CHARPOLY : Nat := 0x10003c03c3f3ecb1904b4edcf26259f850280002bcefd1a5e9d116f2bb0f0f001

/-- Reduction modulo `CHARPOLY` of a polynomial of degree at most 256. -/
def reduce1 (c : Nat) : Nat := if c.testBit 256 then c ^^^ CHARPOLY else c

/-- The loop of the product modulo `CHARPOLY` of the polynomials `a` (its `n` low
bits, the high ones first) and `b` over GF(2): `acc` becomes
`acc * x ^ n + a * b`, reduced. It is written with the primitive operations on
`Nat`, which the kernel evaluates at once. -/
def mulLoop (a b : Nat) (n : Nat) : Nat → Nat :=
  Nat.rec (fun acc => acc) (fun n ih acc =>
    strict (Nat.xor
      (bif Nat.testBit (Nat.mul 2 acc) 256 then Nat.xor (Nat.mul 2 acc) CHARPOLY
        else Nat.mul 2 acc)
      (bif Nat.testBit a n then b else 0)) ih) n

/-- The square of a polynomial modulo `CHARPOLY`. -/
def sqMod (a : Nat) : Nat := strict a fun a => mulLoop a a 256 0

/-- The polynomial `x ^ (2 ^ 128)` modulo `CHARPOLY`. -/
def JUMP_POLY : Nat := 0x39abdc4529b1661ca9582618e03fc9aad5a61266f0c9392c180ec6d33cfd0aba

/-- The polynomial that the table `JUMP` holds, word `i` at the bits `64 * i ..`. -/
def JUMP_TABLE_POLY : Nat :=
  JUMP.getD 0 0 ^^^ (JUMP.getD 1 0 <<< 64) ^^^ (JUMP.getD 2 0 <<< 128) ^^^ (JUMP.getD 3 0 <<< 192)

/-- The number whose bits are those of rank `n < 64 * 256` with `lo <= n % 64 < hi`:
one mask of 64 bits in each of 256 lanes. -/
def laneMask (lo hi : Nat) : Nat :=
  (2 ^ (64 * 256) - 1) / (2 ^ 64 - 1) * (2 ^ hi - 2 ^ lo)

/-- The transition `step` on 256 states at once: word `k` of state `j` is the lane `j`
(the bits `64 * j .. 64 * j + 63`) of word `k`. -/
def wideStep (w : Xoshiro256PlusPlus) : Xoshiro256PlusPlus :=
  ⟨w.s0 ^^^ (w.s3 ^^^ w.s1), w.s1 ^^^ (w.s2 ^^^ w.s0),
    w.s2 ^^^ w.s0 ^^^ ((w.s1 <<< 17) &&& laneMask 17 64),
    (((w.s3 ^^^ w.s1) <<< 45) &&& laneMask 45 64)
      ||| (((w.s3 ^^^ w.s1) >>> 19) &&& laneMask 0 45)⟩

/-- The map `evalPoly` on 256 states at once. -/
def evalPolyWide : Nat → Nat → Xoshiro256PlusPlus → Xoshiro256PlusPlus
  | 0, _, _ => zero
  | n + 1, p, w => strict p fun p => strictState (evalPolyWide n (p / 2) w) fun h =>
      xorState (if p.testBit 0 then w else zero) (wideStep h)

/-- The word in lane `j` of 256 words held together. -/
def laneWord (j w : Nat) : Nat := (w >>> (64 * j)) % 2 ^ 64

/-- The state in lane `j` of 256 states held together. -/
def lane (j : Nat) (w : Xoshiro256PlusPlus) : Xoshiro256PlusPlus :=
  ⟨laneWord j w.s0, laneWord j w.s1, laneWord j w.s2, laneWord j w.s3⟩

/-- The 256 states with one bit set, held together: bit `i` of word `k` is set in
lane `64 * k + i`. -/
def BASIS : Xoshiro256PlusPlus :=
  ⟨(2 ^ (65 * 64) - 1) / (2 ^ 65 - 1),
    ((2 ^ (65 * 64) - 1) / (2 ^ 65 - 1)) <<< (64 * 64),
    ((2 ^ (65 * 64) - 1) / (2 ^ 65 - 1)) <<< (64 * 128),
    ((2 ^ (65 * 64) - 1) / (2 ^ 65 - 1)) <<< (64 * 192)⟩

end Xoshiro256PlusPlus

namespace ParallelUtils

/-- The loop `for (long long i = a; i < b; ++i) func(i)`: the arguments of the calls of
`func`, in the order of the calls. -/
def loopCalls (a b : Int) : List Int :=
  (List.range (b - a).toNat).map (fun (k : Nat) => a + (k : Int))

/-- The branch of `ParallelFor` without OpenMP, `std::thread::hardware_concurrency()`
being a parameter: the list `threads`, every worker given by the calls of `func`
it makes. -/
def ParallelFor (hardware_concurrency : Nat) (start end_ : Int) : List (List Int) :=
  let num_threads : Nat := if hardware_concurrency = 0 then 1 else hardware_concurrency
  let total_work := end_ - start
  let chunk_size := Int.tdiv (total_work + num_threads - 1) num_threads
  forLoop num_threads (fun t threads =>
    let chunk_start := start + t * chunk_size
    let chunk_end := min end_ (chunk_start + chunk_size)
    if chunk_start < end_ then threads ++ [loopCalls chunk_start chunk_end] else threads) []

/-- All the calls of `func` made by one `ParallelFor`. -/
def calls (hardware_concurrency : Nat) (start end_ : Int) : List Int :=
  (ParallelFor hardware_concurrency start end_).flatten

end ParallelUtils

/-- The type `enum class DistributionType` of `RandomGen.hpp`. -/
inductive DistributionType where
  | Normal
  | StudentT
deriving DecidableEq, Repr

/-- The members of `RandomGen` that the engine reads: `type_` and `df_`. -/
structure RandomGen (R : Type) where
  type_ : DistributionType
  df_ : R

/-- The method `RandomGen::get_df`. -/
def RandomGen.get_df {R : Type} (rng : RandomGen R) : R := rng.df_

/-- The call payoff `PayoffCall::operator()` on numbers: `std::max(spot - strike_, 0.0)`;
`IEEE.PayoffCall` is the operator on doubles with their special values. -/
def PayoffCall {R : Type} [LinearOrderedField R] (strike_ : R) (spot : R) : R :=
  max (spot - strike_) 0

/-- The put payoff `PayoffPut::operator()` on numbers: `std::max(strike_ - spot, 0.0)`;
`IEEE.PayoffPut` is the operator on doubles with their special values. -/
def PayoffPut {R : Type} [LinearOrderedField R] (strike_ : R) (spot : R) : R :=
  max (strike_ - spot) 0

/-- The type `struct EngineParams` of `Engine.hpp`. -/
structure EngineParams (R : Type) where
  spot : R
  volatility : R
  rate : R
  expiry : R
  paths : Nat
  steps : Nat := 252
  distType : DistributionType := DistributionType.Normal

/-- The type `struct PricingResult` of `Stats.hpp`. -/
structure PricingResult (R : Type) where
  price : R
  delta : R
  gamma : R
  time_ms : R
  base_seed : Nat

/-- The members of `class Engine`; a payoff is its `operator()`. -/
structure Engine (R : Type) where
  params_ : EngineParams R
  payoff_ : R → R
  rng_ : RandomGen R

/-- What the thread-local distributions return: `normal_dist n` is the value of
the `n`-th call `normal_dist(rng)` and `t_dist df n` the value of the `n`-th call
`t_dist(rng)` of a `std::student_t_distribution<double> t_dist(df)`, counted
from 0. -/
structure Sampler (R : Type) where
  normal_dist : Nat → R
  t_dist : R → Nat → R

namespace Engine

variable {R : Type} [LinearOrderedField R]

/-- The constructor `Engine::Engine`: a member initialiser list and an empty body. -/
def new (params : EngineParams R) (payoff : R → R) (rng : RandomGen R) : Engine R :=
  ⟨params, payoff, rng⟩

/-- The constant `constexpr size_t BLOCK_SIZE = 1024`. -/
def BLOCK_SIZE : Nat := 1024

/-- The variables of the parallel region of `calculatePrice`, for one thread:
`rng` counts the values the thread has drawn from its distribution so far. -/
structure PriceLocals (R : Type) where
  rng : Nat
  spots : Nat → R
  rands : Nat → R
  total_payoff : R

/-- The body of the time-stepping loop of `calculatePrice`. -/
def priceStep (exp : R → R) (e : Engine R) (smp : Sampler R) (drift_step vol_step df : R)
    (current_block_size : Nat) (l : PriceLocals R) : PriceLocals R :=
  let l :=
    if e.params_.distType = DistributionType.Normal then
      forLoop current_block_size (fun k l =>
        { l with rands := Function.update l.rands k (smp.normal_dist l.rng), rng := l.rng + 1 }) l
    else
      forLoop current_block_size (fun k l =>
        { l with rands := Function.update l.rands k (smp.t_dist df l.rng), rng := l.rng + 1 }) l
  forLoop current_block_size (fun k l =>
    let shock := exp (drift_step + vol_step * l.rands k)
    { l with spots := Function.update l.spots k (l.spots k * shock) }) l

/-- One block of `calculatePrice` up to the end of the time-stepping loop. -/
def priceSimulate (exp : R → R) (e : Engine R) (smp : Sampler R) (drift_step vol_step df : R)
    (i : Nat) (l : PriceLocals R) : PriceLocals R :=
  let current_block_size := min BLOCK_SIZE (e.params_.paths - i)
  let l := { l with spots := fun k => if k < current_block_size then e.params_.spot else l.spots k }
  forLoop e.params_.steps
    (fun _ l => priceStep exp e smp drift_step vol_step df current_block_size l) l

/-- The body of the loop over the blocks of `calculatePrice`. -/
def priceBlock (exp : R → R) (e : Engine R) (smp : Sampler R) (drift_step vol_step df : R)
    (i : Nat) (l : PriceLocals R) : PriceLocals R :=
  let current_block_size := min BLOCK_SIZE (e.params_.paths - i)
  let l := priceSimulate exp e smp drift_step vol_step df i l
  let block_payoff := forLoop current_block_size (fun k bp => bp + e.payoff_ (l.spots k)) 0
  { l with total_payoff := l.total_payoff + block_payoff }

/-- The method `Engine::calculatePrice`, the pragmas read as in a build without OpenMP (one
thread, `thread_id = 0`). -/
def calculatePrice (exp sqrt : R → R) (e : Engine R) (smp : Sampler R) : R :=
  let dt := e.params_.expiry / e.params_.steps
  let sqrt_dt := sqrt dt
  let drift_step := (e.params_.rate - 0.5 * e.params_.volatility * e.params_.volatility) * dt
  let vol_step := e.params_.volatility * sqrt_dt
  let discount := exp (-e.params_.rate * e.params_.expiry)
  let total_payoff : R := 0
  let df := e.rng_.get_df
  let l := stridedLoop BLOCK_SIZE (by decide) e.params_.paths
    (priceBlock exp e smp drift_step vol_step df) 0
    ⟨0, fun _ => 0, fun _ => 0, total_payoff⟩
  (l.total_payoff / e.params_.paths) * discount

/-- The value of the `n`-th draw of the distribution that `distType` selects. -/
def innovation (e : Engine R) (smp : Sampler R) (df : R) (n : Nat) : R :=
  if e.params_.distType = DistributionType.Normal then smp.normal_dist n else smp.t_dist df n

/-- The rank, among the draws of the thread, of the innovation of path `p` at step `s`. -/
def drawIndex (paths steps p s : Nat) : Nat :=
  steps * (p / BLOCK_SIZE * BLOCK_SIZE)
    + s * min BLOCK_SIZE (paths - p / BLOCK_SIZE * BLOCK_SIZE) + p % BLOCK_SIZE

/-- The variables of the parallel region of `calculateAll`, for one thread. -/
structure AllLocals (R : Type) where
  rng : Nat
  spots : Nat → R
  spots_up : Nat → R
  spots_down : Nat → R
  rands : Nat → R
  total_price : R
  total_up : R
  total_down : R

/-- The body of the time-stepping loop of `calculateAll`. -/
def allStep (exp : R → R) (e : Engine R) (smp : Sampler R) (drift_step vol_step df : R)
    (current_block_size : Nat) (l : AllLocals R) : AllLocals R :=
  let l :=
    if e.params_.distType = DistributionType.Normal then
      forLoop current_block_size (fun k l =>
        { l with rands := Function.update l.rands k (smp.normal_dist l.rng), rng := l.rng + 1 }) l
    else
      forLoop current_block_size (fun k l =>
        { l with rands := Function.update l.rands k (smp.t_dist df l.rng), rng := l.rng + 1 }) l
  forLoop current_block_size (fun k l =>
    let shock := exp (drift_step + vol_step * l.rands k)
    { l with spots := Function.update l.spots k (l.spots k * shock),
             spots_up := Function.update l.spots_up k (l.spots_up k * shock),
             spots_down := Function.update l.spots_down k (l.spots_down k * shock) }) l

/-- One block of `calculateAll` up to the end of the time-stepping loop. -/
def allSimulate (exp : R → R) (e : Engine R) (smp : Sampler R) (drift_step vol_step df : R)
    (S0 S_up S_down : R) (i : Nat) (l : AllLocals R) : AllLocals R :=
  let current_block_size := min BLOCK_SIZE (e.params_.paths - i)
  let l := { l with
    spots := fun k => if k < current_block_size then S0 else l.spots k,
    spots_up := fun k => if k < current_block_size then S_up else l.spots_up k,
    spots_down := fun k => if k < current_block_size then S_down else l.spots_down k }
  forLoop e.params_.steps
    (fun _ l => allStep exp e smp drift_step vol_step df current_block_size l) l

/-- The sums of one block of `calculateAll`: `block_price`, `block_up`, `block_down`. -/
structure BlockSums (R : Type) where
  block_price : R
  block_up : R
  block_down : R

/-- The body of the loop over the blocks of `calculateAll`. -/
def allBlock (exp : R → R) (e : Engine R) (smp : Sampler R) (drift_step vol_step df : R)
    (S0 S_up S_down : R) (i : Nat) (l : AllLocals R) : AllLocals R :=
  let current_block_size := min BLOCK_SIZE (e.params_.paths - i)
  let l := allSimulate exp e smp drift_step vol_step df S0 S_up S_down i l
  let b := forLoop current_block_size (fun k (b : BlockSums R) =>
    { block_price := b.block_price + e.payoff_ (l.spots k),
      block_up := b.block_up + e.payoff_ (l.spots_up k),
      block_down := b.block_down + e.payoff_ (l.spots_down k) }) ⟨0, 0, 0⟩
  { l with total_price := l.total_price + b.block_price,
           total_up := l.total_up + b.block_up,
           total_down := l.total_down + b.block_down }

/-- The method `Engine::calculateAll`, the pragmas read as in a build without OpenMP; the
seed and the elapsed time, which come from the environment, are parameters. -/
def calculateAll (exp sqrt : R → R) (e : Engine R) (smp : Sampler R)
    (base_seed : Nat) (time_ms : R) : PricingResult R :=
  let bump := 0.01 * e.params_.spot
  let S0 := e.params_.spot
  let S_up := S0 + bump
  let S_down := S0 - bump
  let dt := e.params_.expiry / e.params_.steps
  let sqrt_dt := sqrt dt
  let drift_step := (e.params_.rate - 0.5 * e.params_.volatility * e.params_.volatility) * dt
  let vol_step := e.params_.volatility * sqrt_dt
  let discount := exp (-e.params_.rate * e.params_.expiry)
  let df := e.rng_.get_df
  let l := stridedLoop BLOCK_SIZE (by decide) e.params_.paths
    (allBlock exp e smp drift_step vol_step df S0 S_up S_down) 0
    ⟨0, fun _ => 0, fun _ => 0, fun _ => 0, fun _ => 0, 0, 0, 0⟩
  let price := (l.total_price / e.params_.paths) * discount
  let price_up := (l.total_up / e.params_.paths) * discount
  let price_down := (l.total_down / e.params_.paths) * discount
  let delta := (price_up - price_down) / (2 * bump)
  let gamma := (price_up - 2 * price + price_down) / (bump * bump)
  ⟨price, delta, gamma, time_ms, base_seed⟩

/-- The sampler all of whose draws are zero. -/
def zeroSampler (R : Type) [LinearOrderedField R] : Sampler R := ⟨fun _ => 0, fun _ _ => 0⟩

/-- The payoff of path `p`, its innovations read from the sampler. -/
def pathPayoff {R : Type} [LinearOrderedField R] (exp : R → R) (e : Engine R) (smp : Sampler R)
    (drift_step vol_step df : R) (S : R) (p : Nat) : R :=
  e.payoff_ (S * ∏ s in Finset.range e.params_.steps,
    exp (drift_step + vol_step *
      innovation e smp df (drawIndex e.params_.paths e.params_.steps p s)))

/-- An engine over the rationals: 3 paths of 2 steps, a call struck at 100. -/
def exampleEngine : Engine ℚ :=
  Engine.new ⟨100, 1 / 5, 1 / 20, 1, 3, 2, DistributionType.Normal⟩ (PayoffCall 100)
    ⟨DistributionType.Normal, 4⟩

/-- The thread-local variables of `calculateAll` on entry to the parallel region. -/
def exampleLocals : AllLocals ℚ :=
  ⟨0, fun _ => 0, fun _ => 0, fun _ => 0, fun _ => 0, 0, 0, 0⟩

/-- The thread-local generator `Xoshiro256PlusPlus rng(base_seed + thread_id)` of the
parallel regions of `calculatePrice` and `calculateAll`; the sum is a `uint64_t`. -/
def threadRng (base_seed thread_id : Nat) : Xoshiro256PlusPlus :=
  Xoshiro256PlusPlus.init (u64 (base_seed + thread_id))

end Engine

/-- A `double` with its special values: a number, an infinity or a NaN. The numbers
are the elements of `R`: no rounding, no overflow and a single zero. -/
inductive Double (R : Type) where
  | fin (x : R)
  | posInf
  | negInf
  | nan
deriving DecidableEq

namespace Double

variable {R : Type} [LinearOrderedField R]

/-- The sum of two doubles: `inf + (-inf)` and every sum with a NaN are NaN. -/
def add : Double R → Double R → Double R
  | fin x, fin y => fin (x + y)
  | fin _, posInf => posInf
  | fin _, negInf => negInf
  | posInf, fin _ => posInf
  | posInf, posInf => posInf
  | negInf, fin _ => negInf
  | negInf, negInf => negInf
  | _, _ => nan

/-- The opposite of a double. -/
def neg : Double R → Double R
  | fin x => fin (-x)
  | posInf => negInf
  | negInf => posInf
  | nan => nan

/-- The difference of two doubles, `a + (-b)`. -/
def sub (a b : Double R) : Double R := add a (neg b)

/-- An infinity times the number `x`: NaN when `x` is zero. -/
def infMul (positive : Bool) (x : R) : Double R :=
  if x = 0 then nan
  else if 0 < x then (if positive then posInf else negInf)
  else (if positive then negInf else posInf)

/-- The product of two doubles: `0 * inf` and every product with a NaN are NaN. -/
def mul : Double R → Double R → Double R
  | fin x, fin y => fin (x * y)
  | fin x, posInf => infMul true x
  | fin x, negInf => infMul false x
  | posInf, fin y => infMul true y
  | negInf, fin y => infMul false y
  | posInf, posInf => posInf
  | posInf, negInf => negInf
  | negInf, posInf => negInf
  | negInf, negInf => posInf
  | _, _ => nan

/-- The quotient of two doubles: `0 / 0`, `inf / inf` and every quotient with a NaN
are NaN; a number that is not zero divided by zero is an infinity (the zero of `R`
stands for `+0`). -/
def div : Double R → Double R → Double R
  | fin x, fin y => if y = 0 then infMul true x else fin (x / y)
  | fin _, posInf => fin 0
  | fin _, negInf => fin 0
  | posInf, fin y => if y < 0 then negInf else posInf
  | negInf, fin y => if y < 0 then posInf else negInf
  | _, _ => nan

/-- The comparison `a < b` of two doubles: false as soon as one is a NaN. -/
def lt : Double R → Double R → Bool
  | fin x, fin y => decide (x < y)
  | fin _, posInf => true
  | negInf, fin _ => true
  | negInf, posInf => true
  | _, _ => false

/-- The comparison `a <= b` of two doubles: false as soon as one is a NaN. -/
def le : Double R → Double R → Bool
  | fin x, fin y => decide (x ≤ y)
  | fin _, posInf => true
  | posInf, posInf => true
  | negInf, fin _ => true
  | negInf, posInf => true
  | negInf, negInf => true
  | _, _ => false

/-- The function `std::max(a, b)`: `(a < b) ? b : a`. -/
def max (a b : Double R) : Double R := if lt a b then b else a

/-- The function `std::sqrt`: a NaN on a negative number. -/
def sqrt (f : R → R) : Double R → Double R
  | fin x => if x < 0 then nan else fin (f x)
  | posInf => posInf
  | negInf => nan
  | nan => nan

/-- The function `std::exp`. -/
def exp (f : R → R) : Double R → Double R
  | fin x => fin (f x)
  | posInf => posInf
  | negInf => fin 0
  | nan => nan

instance : Add (Double R) := ⟨add⟩

instance : Neg (Double R) := ⟨neg⟩

instance : Sub (Double R) := ⟨sub⟩

instance : Mul (Double R) := ⟨mul⟩

instance : Div (Double R) := ⟨div⟩

instance : NatCast (Double R) := ⟨fun n => fin (n : R)⟩

instance (n : Nat) : OfNat (Double R) n := ⟨fin (n : R)⟩

instance : OfScientific (Double R) := ⟨fun m s e => fin (OfScientific.ofScientific m s e)⟩

end Double

namespace IEEE

open Double

variable {R : Type} [LinearOrderedField R]

/-- The call payoff `PayoffCall::operator()` on doubles with their special values:
`std::max(spot - strike_, 0.0)`. -/
def PayoffCall (strike_ : Double R) (spot : Double R) : Double R :=
  Double.max (spot - strike_) 0

/-- The put payoff `PayoffPut::operator()` on doubles with their special values:
`std::max(strike_ - spot, 0.0)`. -/
def PayoffPut (strike_ : Double R) (spot : Double R) : Double R :=
  Double.max (strike_ - spot) 0

/-- The body of the time-stepping loop of `calculatePrice`, on doubles with their
special values. -/
def priceStep (exp : R → R) (e : Engine (Double R)) (smp : Sampler (Double R))
    (drift_step vol_step df : Double R) (current_block_size : Nat)
    (l : Engine.PriceLocals (Double R)) : Engine.PriceLocals (Double R) :=
  let l :=
    if e.params_.distType = DistributionType.Normal then
      forLoop current_block_size (fun k l =>
        { l with rands := Function.update l.rands k (smp.normal_dist l.rng), rng := l.rng + 1 }) l
    else
      forLoop current_block_size (fun k l =>
        { l with rands := Function.update l.rands k (smp.t_dist df l.rng), rng := l.rng + 1 }) l
  forLoop current_block_size (fun k l =>
    let shock := Double.exp exp (drift_step + vol_step * l.rands k)
    { l with spots := Function.update l.spots k (l.spots k * shock) }) l

/-- One block of `calculatePrice` up to the end of the time-stepping loop, on doubles
with their special values. -/
def priceSimulate (exp : R → R) (e : Engine (Double R)) (smp : Sampler (Double R))
    (drift_step vol_step df : Double R) (i : Nat) (l : Engine.PriceLocals (Double R)) :
    Engine.PriceLocals (Double R) :=
  let current_block_size := min Engine.BLOCK_SIZE (e.params_.paths - i)
  let l := { l with spots := fun k => if k < current_block_size then e.params_.spot else l.spots k }
  forLoop e.params_.steps
    (fun _ l => priceStep exp e smp drift_step vol_step df current_block_size l) l

/-- The body of the loop over the blocks of `calculatePrice`, on doubles with their
special values. -/
def priceBlock (exp : R → R) (e : Engine (Double R)) (smp : Sampler (Double R))
    (drift_step vol_step df : Double R) (i : Nat) (l : Engine.PriceLocals (Double R)) :
    Engine.PriceLocals (Double R) :=
  let current_block_size := min Engine.BLOCK_SIZE (e.params_.paths - i)
  let l := priceSimulate exp e smp drift_step vol_step df i l
  let block_payoff := forLoop current_block_size (fun k bp => bp + e.payoff_ (l.spots k)) 0
  { l with total_payoff := l.total_payoff + block_payoff }

/-- The method `Engine::calculatePrice` on doubles with their special values, the
pragmas read as in a build without OpenMP. -/
def calculatePrice (exp sqrt : R → R) (e : Engine (Double R)) (smp : Sampler (Double R)) :
    Double R :=
  let dt := e.params_.expiry / e.params_.steps
  let sqrt_dt := Double.sqrt sqrt dt
  let drift_step := (e.params_.rate - 0.5 * e.params_.volatility * e.params_.volatility) * dt
  let vol_step := e.params_.volatility * sqrt_dt
  let discount := Double.exp exp (-e.params_.rate * e.params_.expiry)
  let total_payoff : Double R := 0
  let df := e.rng_.get_df
  let l := stridedLoop Engine.BLOCK_SIZE (by decide) e.params_.paths
    (priceBlock exp e smp drift_step vol_step df) 0
    ⟨0, fun _ => 0, fun _ => 0, total_payoff⟩
  (l.total_payoff / e.params_.paths) * discount

/-- The body of the time-stepping loop of `calculateAll`, on doubles with their
special values. -/
def allStep (exp : R → R) (e : Engine (Double R)) (smp : Sampler (Double R))
    (drift_step vol_step df : Double R) (current_block_size : Nat)
    (l : Engine.AllLocals (Double R)) : Engine.AllLocals (Double R) :=
  let l :=
    if e.params_.distType = DistributionType.Normal then
      forLoop current_block_size (fun k l =>
        { l with rands := Function.update l.rands k (smp.normal_dist l.rng), rng := l.rng + 1 }) l
    else
      forLoop current_block_size (fun k l =>
        { l with rands := Function.update l.rands k (smp.t_dist df l.rng), rng := l.rng + 1 }) l
  forLoop current_block_size (fun k l =>
    let shock := Double.exp exp (drift_step + vol_step * l.rands k)
    { l with spots := Function.update l.spots k (l.spots k * shock),
             spots_up := Function.update l.spots_up k (l.spots_up k * shock),
             spots_down := Function.update l.spots_down k (l.spots_down k * shock) }) l

/-- One block of `calculateAll` up to the end of the time-stepping loop, on doubles
with their special values. -/
def allSimulate (exp : R → R) (e : Engine (Double R)) (smp : Sampler (Double R))
    (drift_step vol_step df : Double R) (S0 S_up S_down : Double R) (i : Nat)
    (l : Engine.AllLocals (Double R)) : Engine.AllLocals (Double R) :=
  let current_block_size := min Engine.BLOCK_SIZE (e.params_.paths - i)
  let l := { l with
    spots := fun k => if k < current_block_size then S0 else l.spots k,
    spots_up := fun k => if k < current_block_size then S_up else l.spots_up k,
    spots_down := fun k => if k < current_block_size then S_down else l.spots_down k }
  forLoop e.params_.steps
    (fun _ l => allStep exp e smp drift_step vol_step df current_block_size l) l

/-- The body of the loop over the blocks of `calculateAll`, on doubles with their
special values. -/
def allBlock (exp : R → R) (e : Engine (Double R)) (smp : Sampler (Double R))
    (drift_step vol_step df : Double R) (S0 S_up S_down : Double R) (i : Nat)
    (l : Engine.AllLocals (Double R)) : Engine.AllLocals (Double R) :=
  let current_block_size := min Engine.BLOCK_SIZE (e.params_.paths - i)
  let l := allSimulate exp e smp drift_step vol_step df S0 S_up S_down i l
  let b := forLoop current_block_size (fun k (b : Engine.BlockSums (Double R)) =>
    { block_price := b.block_price + e.payoff_ (l.spots k),
      block_up := b.block_up + e.payoff_ (l.spots_up k),
      block_down := b.block_down + e.payoff_ (l.spots_down k) }) ⟨0, 0, 0⟩
  { l with total_price := l.total_price + b.block_price,
           total_up := l.total_up + b.block_up,
           total_down := l.total_down + b.block_down }

/-- The method `Engine::calculateAll` on doubles with their special values, the
pragmas read as in a build without OpenMP; the seed and the elapsed time, which come
from the environment, are parameters. -/
def calculateAll (exp sqrt : R → R) (e : Engine (Double R)) (smp : Sampler (Double R))
    (base_seed : Nat) (time_ms : Double R) : PricingResult (Double R) :=
  let bump := 0.01 * e.params_.spot
  let S0 := e.params_.spot
  let S_up := S0 + bump
  let S_down := S0 - bump
  let dt := e.params_.expiry / e.params_.steps
  let sqrt_dt := Double.sqrt sqrt dt
  let drift_step := (e.params_.rate - 0.5 * e.params_.volatility * e.params_.volatility) * dt
  let vol_step := e.params_.volatility * sqrt_dt
  let discount := Double.exp exp (-e.params_.rate * e.params_.expiry)
  let df := e.rng_.get_df
  let l := stridedLoop Engine.BLOCK_SIZE (by decide) e.params_.paths
    (allBlock exp e smp drift_step vol_step df S0 S_up S_down) 0
    ⟨0, fun _ => 0, fun _ => 0, fun _ => 0, fun _ => 0, 0, 0, 0⟩
  let price := (l.total_price / e.params_.paths) * discount
  let price_up := (l.total_up / e.params_.paths) * discount
  let price_down := (l.total_down / e.params_.paths) * discount
  let delta := (price_up - price_down) / (2 * bump)
  let gamma := (price_up - 2 * price + price_down) / (bump * bump)
  ⟨price, delta, gamma, time_ms, base_seed⟩

/-- The parameters `params` as doubles. -/
def ofParams (params : EngineParams R) : EngineParams (Double R) :=
  ⟨fin params.spot, fin params.volatility, fin params.rate, fin params.expiry,
    params.paths, params.steps, params.distType⟩

/-- The generator settings `rng` as doubles. -/
def ofRandomGen (rng : RandomGen R) : RandomGen (Double R) := ⟨rng.type_, fin rng.df_⟩

/-- The sampler `smp` as doubles: every draw is a number. -/
def ofSampler (smp : Sampler R) : Sampler (Double R) :=
  ⟨fun n => fin (smp.normal_dist n),
    fun df n => match df with
      | fin d => fin (smp.t_dist d n)
      | _ => nan⟩

/-- The result `r` as doubles. -/
def ofResult (r : PricingResult R) : PricingResult (Double R) :=
  ⟨fin r.price, fin r.delta, fin r.gamma, fin r.time_ms, r.base_seed⟩

/-- The constructor `Engine::Engine` on doubles with their special values: a member
initialiser list and an empty body. -/
def new (params : EngineParams (Double R)) (payoff : Double R → Double R)
    (rng : RandomGen (Double R)) : Engine (Double R) :=
  ⟨params, payoff, rng⟩

/-- The engine `e` as doubles, with the payoff `payoff` on doubles. -/
def ofEngine (e : Engine R) (payoff : Double R → Double R) : Engine (Double R) :=
  new (ofParams e.params_) payoff (ofRandomGen e.rng_)

/-- The thread-local variables `l` of `calculateAll` as doubles. -/
def ofAllLocals (l : Engine.AllLocals R) : Engine.AllLocals (Double R) :=
  ⟨l.rng, fun k => fin (l.spots k), fun k => fin (l.spots_up k), fun k => fin (l.spots_down k),
    fun k => fin (l.rands k), fin l.total_price, fin l.total_up, fin l.total_down⟩

/-- The block sums `b` of `calculateAll` as doubles. -/
def ofBlockSums (b : Engine.BlockSums R) : Engine.BlockSums (Double R) :=
  ⟨fin b.block_price, fin b.block_up, fin b.block_down⟩

end IEEE

/-! ## Theorems -/

theorem forLoop_succ {σ : Type} (n : Nat) (body : Nat → σ → σ) (st : σ) :
    forLoop (n + 1) body st = body n (forLoop n body st) := rfl

theorem forLoop_zero {σ : Type} (body : Nat → σ → σ) (st : σ) :
    forLoop 0 body st = st := rfl

/-- A loop that adds `g k` to an accumulator computes the sum of the `g k`. -/
theorem forLoop_add_eq_sum {R : Type} [AddCommMonoid R] (g : Nat → R) (m : Nat) (a : R) :
    forLoop m (fun k bp => bp + g k) a = a + ∑ k in Finset.range m, g k := by
  induction m with
  | zero => simp [forLoop]
  | succ m ih => rw [forLoop_succ, ih, Finset.sum_range_succ, add_assoc]

/-- An invariant of a strided loop holds, at an index past the bound, of its result. -/
theorem stridedLoop_invariant {σ : Type} (stride : Nat) (hs : 0 < stride) (n : Nat)
    (body : Nat → σ → σ) (Inv : Nat → σ → Prop)
    (hstep : ∀ i st, i < n → Inv i st → Inv (i + stride) (body i st)) :
    ∀ (d i : Nat) (st : σ), n - i ≤ d → Inv i st →
      ∃ j, n ≤ j ∧ Inv j (stridedLoop stride hs n body i st) := by
  intro d
  induction d with
  | zero =>
    intro i st hd hinv
    rw [stridedLoop, if_neg (by omega)]
    exact ⟨i, by omega, hinv⟩
  | succ d ih =>
    intro i st hd hinv
    rw [stridedLoop]
    split_ifs with h
    · exact ih (i + stride) (body i st) (by omega) (hstep i st h hinv)
    · exact ⟨i, by omega, hinv⟩

namespace Xoshiro256PlusPlus

theorem u64_lt (x : Nat) : u64 x < 2 ^ 64 := Nat.mod_lt _ (by decide)

theorem u64_of_lt {x : Nat} (h : x < 2 ^ 64) : u64 x = x := Nat.mod_eq_of_lt h

theorem rotl_lt {x : Nat} (k : Nat) (hx : x < 2 ^ 64) : rotl x k < 2 ^ 64 := by
  unfold rotl
  apply Nat.or_lt_two_pow (u64_lt _)
  rw [Nat.shiftRight_eq_div_pow]
  exact lt_of_le_of_lt (Nat.div_le_self _ _) hx

/-- Bit `i` of `rotl x k` is bit `i - k` of `x`, the index taken modulo 64. -/
theorem testBit_rotl {x k : Nat} (hx : x < 2 ^ 64) (hk0 : 0 < k) (hk : k < 64)
    {i : Nat} (hi : i < 64) :
    (rotl x k).testBit i = x.testBit ((i + 64 - k) % 64) := by
  unfold rotl u64
  rw [Nat.testBit_or, Nat.testBit_mod_two_pow, Nat.testBit_shiftLeft,
    Nat.testBit_shiftRight]
  by_cases hik : k ≤ i
  · have h1 : (i + 64 - k) % 64 = i - k := by omega
    have h2 : x.testBit (64 - k + i) = false :=
      Nat.testBit_lt_two_pow (lt_of_lt_of_le hx (Nat.pow_le_pow_right (by decide) (by omega)))
    simp [hi, hik, h1, h2]
  · have h1 : (i + 64 - k) % 64 = 64 - k + i := by omega
    simp [hi, hik, h1]

/-- C5. For every state `(s0, s1, s2, s3)`, `operator()` returns
`(rotl(s0 + s3, 23) + s0) mod 2^64` computed from the state before the call and
leaves the state `(s0 xor s1 xor s3, s0 xor s1 xor s2, s2 xor s0 xor (s1 << 17),
rotl(s1 xor s3, 45))`, where `rotl` is a rotation of the 64 bits of a word to the
left: bit `i` of `rotl x k` is bit `i - k (mod 64)` of `x`. -/
theorem next_eq_reference (g : Xoshiro256PlusPlus) (hg : g.WF) :
    (next g).1 = (rotl ((g.s0 + g.s3) % 2 ^ 64) 23 + g.s0) % 2 ^ 64 ∧
    (next g).2 = ⟨g.s0 ^^^ g.s1 ^^^ g.s3, g.s0 ^^^ g.s1 ^^^ g.s2,
      g.s2 ^^^ g.s0 ^^^ ((g.s1 <<< 17) % 2 ^ 64), rotl (g.s1 ^^^ g.s3) 45⟩ ∧
    (∀ i, i < 64 → (rotl ((g.s0 + g.s3) % 2 ^ 64) 23).testBit i
        = ((g.s0 + g.s3) % 2 ^ 64).testBit ((i + 64 - 23) % 64)) ∧
    (∀ i, i < 64 → (rotl (g.s1 ^^^ g.s3) 45).testBit i
        = (g.s1 ^^^ g.s3).testBit ((i + 64 - 45) % 64)) ∧
    (next g).2.WF := by
  obtain ⟨h0, h1, h2, h3⟩ := hg
  have h13 : g.s1 ^^^ g.s3 < 2 ^ 64 := Nat.xor_lt_two_pow h1 h3
  refine ⟨rfl, ?_, ?_, ?_, ?_⟩
  · show (⟨g.s0 ^^^ (g.s3 ^^^ g.s1), g.s1 ^^^ (g.s2 ^^^ g.s0),
        g.s2 ^^^ g.s0 ^^^ u64 (g.s1 <<< 17), rotl (g.s3 ^^^ g.s1) 45⟩
        : Xoshiro256PlusPlus) = _
    rw [Nat.xor_comm g.s3 g.s1, ← Nat.xor_assoc, Nat.xor_comm g.s2 g.s0,
      ← Nat.xor_assoc, Nat.xor_comm g.s1 g.s0]
    rfl
  · intro i hi
    exact testBit_rotl (Nat.mod_lt _ (by decide)) (by decide) (by decide) hi
  · intro i hi
    exact testBit_rotl h13 (by decide) (by decide) hi
  · show _ < _ ∧ _ < _ ∧ _ < _ ∧ _ < _
    refine ⟨Nat.xor_lt_two_pow h0 (Nat.xor_lt_two_pow h3 h1),
      Nat.xor_lt_two_pow h1 (Nat.xor_lt_two_pow h2 h0),
      Nat.xor_lt_two_pow (Nat.xor_lt_two_pow h2 h0) (u64_lt _),
      rotl_lt _ (Nat.xor_lt_two_pow h3 h1)⟩

/-- Witness of C5 at the state `(1, 2, 3, 4)`. -/
theorem next_eq_reference_witness :
    (next ⟨1, 2, 3, 4⟩).1 = (rotl ((1 + 4) % 2 ^ 64) 23 + 1) % 2 ^ 64 ∧
    (next ⟨1, 2, 3, 4⟩).2 = ⟨1 ^^^ 2 ^^^ 4, 1 ^^^ 2 ^^^ 3,
      3 ^^^ 1 ^^^ ((2 <<< 17) % 2 ^ 64), rotl (2 ^^^ 4) 45⟩ ∧
    (∀ i, i < 64 → (rotl ((1 + 4) % 2 ^ 64) 23).testBit i
        = ((1 + 4) % 2 ^ 64).testBit ((i + 64 - 23) % 64)) ∧
    (∀ i, i < 64 → (rotl (2 ^^^ 4) 45).testBit i
        = (2 ^^^ 4).testBit ((i + 64 - 45) % 64)) ∧
    (next ⟨1, 2, 3, 4⟩).2.WF :=
  next_eq_reference ⟨1, 2, 3, 4⟩ (by decide)

theorem mix_lt (x : Nat) : mix x < 2 ^ 64 := by
  unfold mix
  have h : ∀ z : Nat, z % 2 ^ 64 ^^^ (z % 2 ^ 64) >>> 31 < 2 ^ 64 := by
    intro z
    have hz : z % 2 ^ 64 < 2 ^ 64 := Nat.mod_lt _ (Nat.two_pow_pos _)
    apply Nat.xor_lt_two_pow hz
    rw [Nat.shiftRight_eq_div_pow]
    exact lt_of_le_of_lt (Nat.div_le_self _ _) hz
  exact h _

/-- C6. For every seed the constructor sets the state to
`(mix seed, mix (mix seed), mix^3 seed, mix^4 seed)`, four 64-bit words: each output
of `mix` is the input of the next `mix`. -/
theorem init_eq_mix_chain (seed : Nat) :
    init seed = ⟨mix seed, mix (mix seed), mix (mix (mix seed)),
      mix (mix (mix (mix seed)))⟩ ∧ (init seed).WF := by
  have h : init seed = ⟨mix seed, mix (mix seed), mix (mix (mix seed)),
      mix (mix (mix (mix seed)))⟩ := rfl
  refine ⟨h, ?_⟩
  rw [h]
  exact ⟨mix_lt _, mix_lt _, mix_lt _, mix_lt _⟩

theorem mix_zero_ne_zero : mix 0 ≠ 0 := by decide

/-- C8. For every seed, seed 0 included, the state built by the constructor is
not the all-zero state. -/
theorem init_ne_zero (seed : Nat) : init seed ≠ ⟨0, 0, 0, 0⟩ := by
  intro h
  have h0 : (init seed).s0 = 0 := by rw [h]
  have h1 : (init seed).s1 = 0 := by rw [h]
  have e1 : (init seed).s1 = mix ((init seed).s0) := rfl
  rw [h0] at e1
  exact mix_zero_ne_zero (e1.symm.trans h1)

end Xoshiro256PlusPlus

theorem strict_eq {β : Type} (a : Nat) (f : Nat → β) : strict a f = f a := by
  cases a <;> rfl

namespace Xoshiro256PlusPlus

theorem strictState_eq {β : Type} (g : Xoshiro256PlusPlus) (f : Xoshiro256PlusPlus → β) :
    strictState g f = f g := by
  cases g
  simp only [strictState, strict_eq]

theorem evalPoly_succ (n p : Nat) (g : Xoshiro256PlusPlus) :
    evalPoly (n + 1) p g
      = xorState (if p.testBit 0 then g else zero) (step (evalPoly n (p / 2) g)) := by
  simp only [evalPoly, strict_eq, strictState_eq]

theorem mulLoop_succ (a b n acc : Nat) :
    mulLoop a b (n + 1) acc
      = mulLoop a b n (reduce1 (2 * acc) ^^^ (if a.testBit n then b else 0)) := by
  show strict _ (mulLoop a b n) = _
  rw [strict_eq, Bool.cond_eq_ite, Bool.cond_eq_ite]
  rfl

theorem sqMod_eq (a : Nat) : sqMod a = mulLoop a a 256 0 := by
  simp only [sqMod, strict_eq]

theorem evalPolyWide_succ (n p : Nat) (w : Xoshiro256PlusPlus) :
    evalPolyWide (n + 1) p w
      = xorState (if p.testBit 0 then w else zero) (wideStep (evalPolyWide n (p / 2) w)) := by
  simp only [evalPolyWide, strict_eq, strictState_eq]

theorem xorState_comm (a b : Xoshiro256PlusPlus) : xorState a b = xorState b a := by
  simp only [xorState, Nat.xor_comm]

theorem xorState_assoc (a b c : Xoshiro256PlusPlus) :
    xorState (xorState a b) c = xorState a (xorState b c) := by
  simp only [xorState, Nat.xor_assoc]

theorem xorState_zero (a : Xoshiro256PlusPlus) : xorState a zero = a := by
  cases a
  simp [xorState, zero]

theorem zero_xorState (a : Xoshiro256PlusPlus) : xorState zero a = a := by
  cases a
  simp [xorState, zero]

theorem xorState_self (a : Xoshiro256PlusPlus) : xorState a a = zero := by
  simp [xorState, zero]

/-- Exchange of the middle terms of a xor of four states. -/
theorem xorState_xorState_comm (a b c d : Xoshiro256PlusPlus) :
    xorState (xorState a b) (xorState c d) = xorState (xorState a c) (xorState b d) := by
  rw [xorState_assoc, ← xorState_assoc b c d, xorState_comm b c, xorState_assoc c b d,
    ← xorState_assoc]

theorem zero_WF : zero.WF := by decide

theorem xorState_WF {a b : Xoshiro256PlusPlus} (ha : a.WF) (hb : b.WF) : (xorState a b).WF :=
  ⟨Nat.xor_lt_two_pow ha.1 hb.1, Nat.xor_lt_two_pow ha.2.1 hb.2.1,
    Nat.xor_lt_two_pow ha.2.2.1 hb.2.2.1, Nat.xor_lt_two_pow ha.2.2.2 hb.2.2.2⟩

theorem step_WF {g : Xoshiro256PlusPlus} (hg : g.WF) : (step g).WF := by
  obtain ⟨h0, h1, h2, h3⟩ := hg
  show _ < _ ∧ _ < _ ∧ _ < _ ∧ _ < _
  exact ⟨Nat.xor_lt_two_pow h0 (Nat.xor_lt_two_pow h3 h1),
    Nat.xor_lt_two_pow h1 (Nat.xor_lt_two_pow h2 h0),
    Nat.xor_lt_two_pow (Nat.xor_lt_two_pow h2 h0) (u64_lt _),
    rotl_lt _ (Nat.xor_lt_two_pow h3 h1)⟩

theorem iterate_step_WF {g : Xoshiro256PlusPlus} (hg : g.WF) (n : Nat) : (step^[n] g).WF := by
  induction n with
  | zero => exact hg
  | succ n ih => rw [Function.iterate_succ_apply']; exact step_WF ih

theorem step_zero : step zero = zero := by decide

theorem u64_shiftLeft_xor (a b k : Nat) :
    u64 ((a ^^^ b) <<< k) = u64 (a <<< k) ^^^ u64 (b <<< k) := by
  unfold u64
  apply Nat.eq_of_testBit_eq
  intro i
  simp only [Nat.testBit_mod_two_pow, Nat.testBit_shiftLeft, Nat.testBit_xor]
  by_cases h1 : i < 64 <;> by_cases h2 : k ≤ i <;> simp [h1, h2]

theorem rotl_xor {a b k : Nat} (ha : a < 2 ^ 64) (hb : b < 2 ^ 64) (hk0 : 0 < k)
    (hk : k < 64) : rotl (a ^^^ b) k = rotl a k ^^^ rotl b k := by
  have hab : a ^^^ b < 2 ^ 64 := Nat.xor_lt_two_pow ha hb
  apply Nat.eq_of_testBit_eq
  intro i
  by_cases hi : i < 64
  · rw [Nat.testBit_xor, testBit_rotl hab hk0 hk hi, testBit_rotl ha hk0 hk hi,
      testBit_rotl hb hk0 hk hi, Nat.testBit_xor]
  · have hle : 2 ^ 64 ≤ 2 ^ i := Nat.pow_le_pow_right (by decide) (by omega)
    rw [Nat.testBit_xor, Nat.testBit_lt_two_pow (lt_of_lt_of_le (rotl_lt k hab) hle),
      Nat.testBit_lt_two_pow (lt_of_lt_of_le (rotl_lt k ha) hle),
      Nat.testBit_lt_two_pow (lt_of_lt_of_le (rotl_lt k hb) hle)]
    rfl

theorem xor4 (a b c d : Nat) : a ^^^ b ^^^ (c ^^^ d) = a ^^^ c ^^^ (b ^^^ d) := by
  rw [Nat.xor_assoc, ← Nat.xor_assoc b c d, Nat.xor_comm b c, Nat.xor_assoc c b d,
    ← Nat.xor_assoc]

theorem step_eq (g : Xoshiro256PlusPlus) :
    step g = ⟨g.s0 ^^^ (g.s3 ^^^ g.s1), g.s1 ^^^ (g.s2 ^^^ g.s0),
      g.s2 ^^^ g.s0 ^^^ u64 (g.s1 <<< 17), rotl (g.s3 ^^^ g.s1) 45⟩ := rfl

/-- The transition is linear for the exclusive or of states. -/
theorem step_xorState {a b : Xoshiro256PlusPlus} (ha : a.WF) (hb : b.WF) :
    step (xorState a b) = xorState (step a) (step b) := by
  obtain ⟨a0, a1, a2, a3⟩ := ha
  obtain ⟨b0, b1, b2, b3⟩ := hb
  simp only [step_eq, xorState, u64_shiftLeft_xor]
  have hr : rotl (a.s3 ^^^ b.s3 ^^^ (a.s1 ^^^ b.s1)) 45
      = rotl (a.s3 ^^^ a.s1) 45 ^^^ rotl (b.s3 ^^^ b.s1) 45 := by
    rw [← rotl_xor (Nat.xor_lt_two_pow a3 a1) (Nat.xor_lt_two_pow b3 b1) (by decide)
      (by decide)]
    rw [xor4]
  rw [hr, xor4 a.s3 b.s3 a.s1 b.s1, xor4 a.s2 b.s2 a.s0 b.s0, xor4 a.s0 b.s0,
    xor4 a.s1 b.s1, xor4 (a.s2 ^^^ a.s0)]

theorem evalPoly_WF {g : Xoshiro256PlusPlus} (hg : g.WF) (n p : Nat) : (evalPoly n p g).WF := by
  induction n generalizing p with
  | zero => exact zero_WF
  | succ n ih =>
    rw [evalPoly_succ]
    apply xorState_WF _ (step_WF (ih _))
    split_ifs
    · exact hg
    · exact zero_WF

theorem evalPoly_zero_poly (n : Nat) (g : Xoshiro256PlusPlus) : evalPoly n 0 g = zero := by
  induction n with
  | zero => rfl
  | succ n ih =>
    rw [evalPoly_succ, Nat.zero_div, ih, step_zero]
    simp [xorState_zero]

theorem evalPoly_zero_state (n p : Nat) : evalPoly n p zero = zero := by
  induction n generalizing p with
  | zero => rfl
  | succ n ih =>
    rw [evalPoly_succ, ih, step_zero]
    simp [xorState_zero]

/-- The map `evalPoly` is additive in the polynomial. -/
theorem evalPoly_xor_poly {g : Xoshiro256PlusPlus} (hg : g.WF) (n p q : Nat) :
    evalPoly n (p ^^^ q) g = xorState (evalPoly n p g) (evalPoly n q g) := by
  induction n generalizing p q with
  | zero => simp [evalPoly, xorState_zero]
  | succ n ih =>
    rw [evalPoly_succ, evalPoly_succ, evalPoly_succ, Nat.xor_div_two, ih,
      step_xorState (evalPoly_WF hg _ _) (evalPoly_WF hg _ _),
      xorState_xorState_comm (if p.testBit 0 then g else zero)]
    congr 1
    rw [Nat.testBit_xor]
    cases p.testBit 0 <;> cases q.testBit 0 <;>
      simp [xorState_zero, zero_xorState, xorState_self]

/-- The map `evalPoly` is additive in the state. -/
theorem evalPoly_xor_state {a b : Xoshiro256PlusPlus} (ha : a.WF) (hb : b.WF) (n p : Nat) :
    evalPoly n p (xorState a b) = xorState (evalPoly n p a) (evalPoly n p b) := by
  induction n generalizing p with
  | zero => simp [evalPoly, xorState_zero]
  | succ n ih =>
    rw [evalPoly_succ, evalPoly_succ, evalPoly_succ, ih,
      step_xorState (evalPoly_WF ha _ _) (evalPoly_WF hb _ _),
      xorState_xorState_comm (if p.testBit 0 then a else zero)]
    congr 1
    cases p.testBit 0 <;> simp [xorState_zero]

theorem evalPoly_two_mul (n p : Nat) (g : Xoshiro256PlusPlus) :
    evalPoly (n + 1) (2 * p) g = step (evalPoly n p g) := by
  rw [evalPoly_succ]
  have h1 : (2 * p).testBit 0 = false := by simp [Nat.testBit_zero]
  have h2 : 2 * p / 2 = p := by omega
  rw [h1, h2]
  simp [zero_xorState]

theorem evalPoly_succ_of_lt {n p : Nat} (h : p < 2 ^ n) (g : Xoshiro256PlusPlus) :
    evalPoly (n + 1) p g = evalPoly n p g := by
  induction n generalizing p with
  | zero =>
    have hp : p = 0 := by simpa using h
    subst hp
    rw [evalPoly_zero_poly, evalPoly_zero_poly]
  | succ n ih =>
    rw [Nat.pow_succ, Nat.mul_comm] at h
    rw [evalPoly_succ (n + 1), ih (Nat.div_lt_of_lt_mul h), ← evalPoly_succ]

theorem evalPoly_of_lt {n m p : Nat} (h : p < 2 ^ n) (hnm : n ≤ m) (g : Xoshiro256PlusPlus) :
    evalPoly m p g = evalPoly n p g := by
  induction m with
  | zero =>
    have : n = 0 := by omega
    subst this
    rfl
  | succ m ih =>
    by_cases hn : n = m + 1
    · subst hn; rfl
    · rw [evalPoly_succ_of_lt (lt_of_lt_of_le h (Nat.pow_le_pow_right (by decide) (by omega))),
        ih (by omega)]

theorem evalPoly_shiftLeft (n k p : Nat) (g : Xoshiro256PlusPlus) :
    evalPoly (n + k) (p <<< k) g = step^[k] (evalPoly n p g) := by
  induction k with
  | zero => simp
  | succ k ih =>
    have h : p <<< (k + 1) = 2 * (p <<< k) := by
      rw [Nat.shiftLeft_succ]
    rw [h, ← Nat.add_assoc, evalPoly_two_mul, ih, Function.iterate_succ_apply']

theorem iterate_step_zero (k : Nat) : step^[k] zero = zero := by
  induction k with
  | zero => rfl
  | succ k ih => rw [Function.iterate_succ_apply', ih, step_zero]

theorem step_ite (c : Prop) [Decidable c] (a : Xoshiro256PlusPlus) :
    step (if c then a else zero) = if c then step a else zero := by
  split_ifs
  · rfl
  · exact step_zero

/-- The map `evalPoly` with one more coefficient adds the iterate of that rank. -/
theorem evalPoly_succ_top {g : Xoshiro256PlusPlus} (hg : g.WF) (n p : Nat) :
    evalPoly (n + 1) p g
      = xorState (evalPoly n p g) (if p.testBit n then step^[n] g else zero) := by
  induction n generalizing p with
  | zero =>
    rw [evalPoly_succ]
    simp only [evalPoly, step_zero, xorState_zero, zero_xorState, Function.iterate_zero, id]
  | succ n ih =>
    have hw : (if (p / 2).testBit n then step^[n] g else zero).WF := by
      split_ifs
      · exact iterate_step_WF hg n
      · exact zero_WF
    rw [evalPoly_succ, ih, step_xorState (evalPoly_WF hg _ _) hw, ← xorState_assoc,
      ← evalPoly_succ, step_ite, Nat.testBit_div_two, ← Function.iterate_succ_apply' step]

theorem evalPoly_step {g : Xoshiro256PlusPlus} (hg : g.WF) (n p : Nat) :
    evalPoly n p (step g) = step (evalPoly n p g) := by
  induction n generalizing p with
  | zero => exact step_zero.symm
  | succ n ih =>
    have hw : (if p.testBit 0 then g else zero).WF := by
      split_ifs
      · exact hg
      · exact zero_WF
    rw [evalPoly_succ, evalPoly_succ, ih, step_xorState hw (step_WF (evalPoly_WF hg _ _)),
      step_ite]

theorem evalPoly_iterate_step {g : Xoshiro256PlusPlus} (hg : g.WF) (n p k : Nat) :
    evalPoly n p (step^[k] g) = step^[k] (evalPoly n p g) := by
  induction k with
  | zero => rfl
  | succ k ih =>
    rw [Function.iterate_succ_apply', Function.iterate_succ_apply',
      evalPoly_step (iterate_step_WF hg k), ih]

theorem testBit_eq_false_of_lt {x i k : Nat} (hx : x < 2 ^ k) (hi : k ≤ i) :
    x.testBit i = false :=
  Nat.testBit_lt_two_pow (lt_of_lt_of_le hx (Nat.pow_le_pow_right (by decide) hi))

set_option exponentiation.threshold 600 in
theorem charpoly_lt : CHARPOLY < 2 ^ 257 := by decide

theorem charpoly_testBit : CHARPOLY.testBit 256 = true := by decide

/-- The reduction step clears the coefficient of degree 256. -/
theorem reduce1_lt {c : Nat} (hc : c < 2 ^ 257) : reduce1 c < 2 ^ 256 := by
  unfold reduce1
  apply Nat.lt_pow_two_of_testBit
  intro i hi
  by_cases h : i = 256
  · subst h
    split_ifs with hb
    · rw [Nat.testBit_xor, hb, charpoly_testBit]; rfl
    · simpa using hb
  · have hc2 : c.testBit i = false := testBit_eq_false_of_lt hc (by omega)
    split_ifs with hb
    · rw [Nat.testBit_xor, hc2, testBit_eq_false_of_lt charpoly_lt (by omega)]; rfl
    · exact hc2

/-- The reduction step does not change the map, if `CHARPOLY` annihilates `step`. -/
theorem evalPoly_reduce1 {g : Xoshiro256PlusPlus} (hg : g.WF)
    (hP : evalPoly 257 CHARPOLY g = zero) (c : Nat) :
    evalPoly 257 (reduce1 c) g = evalPoly 257 c g := by
  unfold reduce1
  split_ifs
  · rw [evalPoly_xor_poly hg, hP, xorState_zero]
  · rfl

theorem iterate_step_xorState {a b : Xoshiro256PlusPlus} (ha : a.WF) (hb : b.WF) (n : Nat) :
    step^[n] (xorState a b) = xorState (step^[n] a) (step^[n] b) := by
  induction n with
  | zero => rfl
  | succ n ih =>
    rw [Function.iterate_succ_apply', Function.iterate_succ_apply',
      Function.iterate_succ_apply', ih,
      step_xorState (iterate_step_WF ha n) (iterate_step_WF hb n)]

theorem iterate_step_ite (c : Prop) [Decidable c] (a : Xoshiro256PlusPlus) (n : Nat) :
    step^[n] (if c then a else zero) = if c then step^[n] a else zero := by
  split_ifs
  · rfl
  · exact iterate_step_zero n

/-- The loop of the product: the map of its result is the map of `acc`, followed
by `n` steps, plus the composition of the maps of `a` and `b`. -/
theorem evalPoly_mulLoop {g : Xoshiro256PlusPlus} (hg : g.WF)
    (hP : evalPoly 257 CHARPOLY g = zero) {a b : Nat} (hb : b < 2 ^ 256) (n : Nat) :
    ∀ acc, acc < 2 ^ 256 →
      mulLoop a b n acc < 2 ^ 256 ∧
      evalPoly 256 (mulLoop a b n acc) g
        = xorState (evalPoly n a (evalPoly 256 b g)) (step^[n] (evalPoly 256 acc g)) := by
  induction n with
  | zero =>
    intro acc hacc
    refine ⟨hacc, ?_⟩
    show evalPoly 256 acc g = xorState zero (evalPoly 256 acc g)
    rw [zero_xorState]
  | succ n ih =>
    intro acc hacc
    have h2 : 2 * acc < 2 ^ 257 := by
      rw [show 257 = 256 + 1 from rfl, Nat.pow_succ]; omega
    have hred := reduce1_lt h2
    have hX : (if a.testBit n then b else 0) < 2 ^ 256 := by
      split_ifs
      · exact hb
      · exact Nat.two_pow_pos _
    have hB := evalPoly_WF hg 256 b
    have hA := evalPoly_WF hg 256 acc
    have hXw : (if a.testBit n = true then evalPoly 256 b g else zero).WF := by
      split_ifs
      · exact hB
      · exact zero_WF
    obtain ⟨h1, h3⟩ := ih _ (Nat.xor_lt_two_pow hred hX)
    rw [mulLoop_succ]
    refine ⟨h1, ?_⟩
    have e1 : evalPoly 256 (reduce1 (2 * acc)) g = step (evalPoly 256 acc g) := by
      rw [← evalPoly_succ_of_lt hred, evalPoly_reduce1 hg hP, evalPoly_two_mul]
    have e2 : evalPoly 256 (if a.testBit n then b else 0) g
        = if a.testBit n then evalPoly 256 b g else zero := by
      split_ifs
      · rfl
      · exact evalPoly_zero_poly _ _
    rw [h3, evalPoly_xor_poly hg, e1, e2, iterate_step_xorState (step_WF hA) hXw,
      iterate_step_ite, ← Function.iterate_succ_apply, evalPoly_succ_top hB,
      xorState_assoc, xorState_comm (step^[n + 1] (evalPoly 256 acc g))]

/-- Squaring modulo `CHARPOLY` is applying the map twice. -/
theorem evalPoly_sqMod {g : Xoshiro256PlusPlus} (hg : g.WF)
    (hP : evalPoly 257 CHARPOLY g = zero) {a : Nat} (ha : a < 2 ^ 256) :
    sqMod a < 2 ^ 256 ∧ evalPoly 256 (sqMod a) g = evalPoly 256 a (evalPoly 256 a g) := by
  rw [sqMod_eq]
  obtain ⟨h1, h2⟩ := evalPoly_mulLoop hg hP ha (a := a) 256 0 (Nat.two_pow_pos _)
  refine ⟨h1, ?_⟩
  rw [h2, evalPoly_zero_poly, iterate_step_zero, xorState_zero]

theorem evalPoly_two {g : Xoshiro256PlusPlus} (n : Nat) :
    evalPoly (n + 2) 2 g = step g := by
  rw [show (2 : Nat) = 2 * 1 by rfl, evalPoly_two_mul, evalPoly_succ]
  simp [evalPoly_zero_poly, step_zero, xorState_zero]

/-- After `2 ^ k` calls of `operator()` the state is the image by the polynomial
`x ^ (2 ^ k)` reduced modulo `CHARPOLY`. -/
theorem iterate_two_pow_eq_evalPoly
    (hP : ∀ g : Xoshiro256PlusPlus, g.WF → evalPoly 257 CHARPOLY g = zero) (k : Nat) :
    sqMod^[k] 2 < 2 ^ 256 ∧
      ∀ g : Xoshiro256PlusPlus, g.WF → step^[2 ^ k] g = evalPoly 256 (sqMod^[k] 2) g := by
  induction k with
  | zero =>
    refine ⟨by decide, ?_⟩
    intro g _
    simp only [Function.iterate_zero, id, pow_zero, Function.iterate_one]
    exact (evalPoly_two 254).symm
  | succ k ih =>
    obtain ⟨h1, h2⟩ := ih
    rw [Function.iterate_succ_apply']
    refine ⟨(evalPoly_sqMod zero_WF (hP _ zero_WF) h1).1, ?_⟩
    intro g hg
    rw [(evalPoly_sqMod hg (hP g hg) h1).2, Nat.pow_succ, Nat.mul_two,
      Function.iterate_add_apply, h2 g hg, h2 _ (evalPoly_WF hg _ _)]

theorem testBit_laneWord (j w i : Nat) :
    (laneWord j w).testBit i = (decide (i < 64) && w.testBit (64 * j + i)) := by
  unfold laneWord
  rw [Nat.testBit_mod_two_pow, Nat.testBit_shiftRight]

theorem laneWord_lt (j w : Nat) : laneWord j w < 2 ^ 64 := Nat.mod_lt _ (Nat.two_pow_pos _)

theorem laneWord_xor (j a b : Nat) :
    laneWord j (a ^^^ b) = laneWord j a ^^^ laneWord j b := by
  apply Nat.eq_of_testBit_eq
  intro i
  simp only [testBit_laneWord, Nat.testBit_xor]
  cases decide (i < 64) <;> simp

theorem laneWord_zero (j : Nat) : laneWord j 0 = 0 := by
  simp [laneWord]

theorem lane_zero (j : Nat) : lane j zero = zero := by
  simp only [lane, zero, laneWord_zero]

theorem lane_xorState (j : Nat) (a b : Xoshiro256PlusPlus) :
    lane j (xorState a b) = xorState (lane j a) (lane j b) := by
  simp only [lane, xorState, laneWord_xor]

theorem lane_WF (j : Nat) (w : Xoshiro256PlusPlus) : (lane j w).WF :=
  ⟨laneWord_lt _ _, laneWord_lt _ _, laneWord_lt _ _, laneWord_lt _ _⟩

set_option maxRecDepth 100000 in
set_option exponentiation.threshold 100000 in
theorem laneWord_laneMask : ∀ j, j < 256 →
    laneWord j (laneMask 17 64) = 2 ^ 64 - 2 ^ 17 ∧
    laneWord j (laneMask 45 64) = 2 ^ 64 - 2 ^ 45 ∧
    laneWord j (laneMask 0 45) = 2 ^ 45 - 2 ^ 0 := by
  decide!

theorem testBit_lane_masks : ∀ i, i < 64 →
    ((2 ^ 64 - 2 ^ 17).testBit i = decide (17 ≤ i)) ∧
    ((2 ^ 64 - 2 ^ 45).testBit i = decide (45 ≤ i)) ∧
    ((2 ^ 45 - 2 ^ 0).testBit i = decide (i < 45)) := by
  decide

theorem testBit_laneMask (j : Nat) (hj : j < 256) (i : Nat) (hi : i < 64) :
    ((laneMask 17 64).testBit (64 * j + i) = decide (17 ≤ i)) ∧
    ((laneMask 45 64).testBit (64 * j + i) = decide (45 ≤ i)) ∧
    ((laneMask 0 45).testBit (64 * j + i) = decide (i < 45)) := by
  have h : ∀ m : Nat, m.testBit (64 * j + i) = (laneWord j m).testBit i := by
    intro m
    rw [testBit_laneWord]
    simp [hi]
  obtain ⟨m1, m2, m3⟩ := laneWord_laneMask j hj
  obtain ⟨t1, t2, t3⟩ := testBit_lane_masks i hi
  rw [h, h, h, m1, m2, m3]
  exact ⟨t1, t2, t3⟩

/-- The masked shift of `wideStep` is `s[1] << 17` in every lane. -/
theorem laneWord_shiftLeft {j : Nat} (hj : j < 256) (w : Nat) :
    laneWord j ((w <<< 17) &&& laneMask 17 64) = u64 (laneWord j w <<< 17) := by
  apply Nat.eq_of_testBit_eq
  intro i
  unfold u64
  rw [testBit_laneWord, Nat.testBit_and, Nat.testBit_shiftLeft, Nat.testBit_mod_two_pow,
    Nat.testBit_shiftLeft, testBit_laneWord]
  by_cases hi : i < 64
  · rw [(testBit_laneMask j hj i hi).1]
    by_cases h17 : 17 ≤ i
    · have e : 64 * j + i - 17 = 64 * j + (i - 17) := by omega
      have h3 : i - 17 < 64 := by omega
      have h4 : 17 ≤ 64 * j + i := by omega
      simp [hi, h17, e, h3, h4]
    · simp [h17]
  · simp [hi]

/-- The masked shifts of `wideStep` are `rotl(x, 45)` in every lane. -/
theorem laneWord_rotl {j : Nat} (hj : j < 256) (w : Nat) :
    laneWord j (((w <<< 45) &&& laneMask 45 64) ||| ((w >>> 19) &&& laneMask 0 45))
      = rotl (laneWord j w) 45 := by
  apply Nat.eq_of_testBit_eq
  intro i
  unfold rotl u64
  rw [testBit_laneWord, Nat.testBit_or, Nat.testBit_and, Nat.testBit_and,
    Nat.testBit_shiftLeft, Nat.testBit_shiftRight, Nat.testBit_or, Nat.testBit_mod_two_pow,
    Nat.testBit_shiftLeft, Nat.testBit_shiftRight, testBit_laneWord, testBit_laneWord]
  by_cases hi : i < 64
  · rw [(testBit_laneMask j hj i hi).2.1, (testBit_laneMask j hj i hi).2.2]
    by_cases h45 : 45 ≤ i
    · have e : 64 * j + i - 45 = 64 * j + (i - 45) := by omega
      have h3 : i - 45 < 64 := by omega
      have h4 : 45 ≤ 64 * j + i := by omega
      have h5 : ¬ i < 45 := by omega
      have h6 : ¬ 64 - 45 + i < 64 := by omega
      simp [hi, h45, e, h3, h4, h5, h6]
    · have h5 : i < 45 := by omega
      have h6 : 64 - 45 + i < 64 := by omega
      have e : 19 + (64 * j + i) = 64 * j + (64 - 45 + i) := by omega
      simp [hi, h45, h5, h6, e]
  · have h6 : ¬ 64 - 45 + i < 64 := by omega
    simp [hi, h6]

/-- The function `wideStep` is `step` in every lane. -/
theorem lane_wideStep {j : Nat} (hj : j < 256) (w : Xoshiro256PlusPlus) :
    lane j (wideStep w) = step (lane j w) := by
  simp only [lane, wideStep, step_eq, laneWord_xor, laneWord_shiftLeft hj, laneWord_rotl hj]

/-- The map `evalPolyWide` is `evalPoly` in every lane. -/
theorem lane_evalPolyWide {j : Nat} (hj : j < 256) (n p : Nat) (w : Xoshiro256PlusPlus) :
    lane j (evalPolyWide n p w) = evalPoly n p (lane j w) := by
  induction n generalizing p with
  | zero => exact lane_zero j
  | succ n ih =>
    rw [evalPolyWide_succ, evalPoly_succ, lane_xorState, lane_wideStep hj, ih]
    congr 1
    split_ifs
    · rfl
    · exact lane_zero j

set_option maxRecDepth 100000 in
set_option exponentiation.threshold 100000 in
theorem evalPolyWide_basis : evalPolyWide 257 CHARPOLY BASIS = zero := by
  decide!

set_option maxRecDepth 100000 in
set_option exponentiation.threshold 100000 in
theorem lane_basis : ∀ i, i < 64 →
    lane i BASIS = ⟨2 ^ i, 0, 0, 0⟩ ∧ lane (64 + i) BASIS = ⟨0, 2 ^ i, 0, 0⟩ ∧
    lane (128 + i) BASIS = ⟨0, 0, 2 ^ i, 0⟩ ∧ lane (192 + i) BASIS = ⟨0, 0, 0, 2 ^ i⟩ := by
  decide!

/-- The polynomial `CHARPOLY` annihilates `step` on the state in lane `j` of
`BASIS`. -/
theorem evalPoly_charpoly_lane {j : Nat} (hj : j < 256) :
    evalPoly 257 CHARPOLY (lane j BASIS) = zero := by
  rw [← lane_evalPolyWide hj, evalPolyWide_basis, lane_zero]

theorem charpoly_basis0 (i : Nat) (hi : i < 64) :
    evalPoly 257 CHARPOLY ⟨2 ^ i, 0, 0, 0⟩ = zero := by
  rw [← (lane_basis i hi).1]
  exact evalPoly_charpoly_lane (by omega)

theorem charpoly_basis1 (i : Nat) (hi : i < 64) :
    evalPoly 257 CHARPOLY ⟨0, 2 ^ i, 0, 0⟩ = zero := by
  rw [← (lane_basis i hi).2.1]
  exact evalPoly_charpoly_lane (by omega)

theorem charpoly_basis2 (i : Nat) (hi : i < 64) :
    evalPoly 257 CHARPOLY ⟨0, 0, 2 ^ i, 0⟩ = zero := by
  rw [← (lane_basis i hi).2.2.1]
  exact evalPoly_charpoly_lane (by omega)

theorem charpoly_basis3 (i : Nat) (hi : i < 64) :
    evalPoly 257 CHARPOLY ⟨0, 0, 0, 2 ^ i⟩ = zero := by
  rw [← (lane_basis i hi).2.2.2]
  exact evalPoly_charpoly_lane (by omega)

/-- A number below `2 ^ (n + 1)` is its `n` low bits xor its bit `n`. -/
theorem word_split {w n : Nat} (hw : w < 2 ^ (n + 1)) :
    w = (w % 2 ^ n) ^^^ (if w.testBit n then 2 ^ n else 0) := by
  apply Nat.eq_of_testBit_eq
  intro i
  rw [Nat.testBit_xor, Nat.testBit_mod_two_pow]
  rcases Nat.lt_trichotomy i n with h | h | h
  · have h2 : (if w.testBit n then 2 ^ n else 0).testBit i = false := by
      split_ifs
      · rw [Nat.testBit_two_pow]; simp; omega
      · exact Nat.zero_testBit i
    rw [h2]; simp [h]
  · subst h
    cases hb : w.testBit i <;> simp [Nat.testBit_two_pow]
  · have h1 : w.testBit i = false := testBit_eq_false_of_lt hw (by omega)
    have h2 : (if w.testBit n then 2 ^ n else 0).testBit i = false := by
      split_ifs
      · rw [Nat.testBit_two_pow]; simp; omega
      · exact Nat.zero_testBit i
    rw [h1, h2]; simp

/-- A map `evalPoly n p` that vanishes on the 64 states `f (2 ^ i)` vanishes on every
`f w`, for an embedding `f` of the words into the states that respects xor. -/
theorem evalPoly_vanish_on_word (n p : Nat) (f : Nat → Xoshiro256PlusPlus)
    (hf : ∀ a b, f (a ^^^ b) = xorState (f a) (f b))
    (hwf : ∀ a, a < 2 ^ 64 → (f a).WF) (hf0 : f 0 = zero)
    (hbasis : ∀ i, i < 64 → evalPoly n p (f (2 ^ i)) = zero) :
    ∀ k, k ≤ 64 → ∀ w, w < 2 ^ k → evalPoly n p (f w) = zero := by
  intro k
  induction k with
  | zero =>
    intro _ w hw
    have : w = 0 := by simpa using hw
    rw [this, hf0, evalPoly_zero_state]
  | succ k ih =>
    intro hk w hw
    have hlow : w % 2 ^ k < 2 ^ k := Nat.mod_lt _ (Nat.two_pow_pos _)
    have hle : 2 ^ k ≤ 2 ^ 64 := Nat.pow_le_pow_right (by decide) (by omega)
    have h64 : (2 : Nat) ^ k < 2 ^ 64 := Nat.pow_lt_pow_right (by decide) (by omega)
    rw [word_split hw, hf, evalPoly_xor_state (hwf _ (lt_of_lt_of_le hlow hle))
      (hwf _ (by split_ifs; exact h64; exact Nat.two_pow_pos _)),
      ih (by omega) _ hlow]
    split_ifs
    · rw [hbasis k (by omega), xorState_zero]
    · rw [hf0, evalPoly_zero_state, xorState_zero]

/-- The polynomial `CHARPOLY` annihilates `step` (the Cayley-Hamilton identity of the
transition). -/
theorem evalPoly_charpoly {g : Xoshiro256PlusPlus} (hg : g.WF) :
    evalPoly 257 CHARPOLY g = zero := by
  obtain ⟨h0, h1, h2, h3⟩ := hg
  have e : g = xorState ⟨g.s0, 0, 0, 0⟩ (xorState ⟨0, g.s1, 0, 0⟩
      (xorState ⟨0, 0, g.s2, 0⟩ ⟨0, 0, 0, g.s3⟩)) := by
    cases g
    simp [xorState]
  have w0 : ∀ a, a < 2 ^ 64 → (⟨a, 0, 0, 0⟩ : Xoshiro256PlusPlus).WF :=
    fun a ha => ⟨ha, Nat.two_pow_pos _, Nat.two_pow_pos _, Nat.two_pow_pos _⟩
  have w1 : ∀ a, a < 2 ^ 64 → (⟨0, a, 0, 0⟩ : Xoshiro256PlusPlus).WF :=
    fun a ha => ⟨Nat.two_pow_pos _, ha, Nat.two_pow_pos _, Nat.two_pow_pos _⟩
  have w2 : ∀ a, a < 2 ^ 64 → (⟨0, 0, a, 0⟩ : Xoshiro256PlusPlus).WF :=
    fun a ha => ⟨Nat.two_pow_pos _, Nat.two_pow_pos _, ha, Nat.two_pow_pos _⟩
  have w3 : ∀ a, a < 2 ^ 64 → (⟨0, 0, 0, a⟩ : Xoshiro256PlusPlus).WF :=
    fun a ha => ⟨Nat.two_pow_pos _, Nat.two_pow_pos _, Nat.two_pow_pos _, ha⟩
  have v0 := evalPoly_vanish_on_word 257 CHARPOLY (fun a => ⟨a, 0, 0, 0⟩)
    (fun a b => by simp [xorState]) w0 rfl charpoly_basis0 64 le_rfl g.s0 h0
  have v1 := evalPoly_vanish_on_word 257 CHARPOLY (fun a => ⟨0, a, 0, 0⟩)
    (fun a b => by simp [xorState]) w1 rfl charpoly_basis1 64 le_rfl g.s1 h1
  have v2 := evalPoly_vanish_on_word 257 CHARPOLY (fun a => ⟨0, 0, a, 0⟩)
    (fun a b => by simp [xorState]) w2 rfl charpoly_basis2 64 le_rfl g.s2 h2
  have v3 := evalPoly_vanish_on_word 257 CHARPOLY (fun a => ⟨0, 0, 0, a⟩)
    (fun a b => by simp [xorState]) w3 rfl charpoly_basis3 64 le_rfl g.s3 h3
  simp only [] at v0 v1 v2 v3
  rw [e, evalPoly_xor_state (w0 _ h0) (xorState_WF (w1 _ h1) (xorState_WF (w2 _ h2) (w3 _ h3))),
    evalPoly_xor_state (w1 _ h1) (xorState_WF (w2 _ h2) (w3 _ h3)),
    evalPoly_xor_state (w2 _ h2) (w3 _ h3), v0, v1, v2, v3]
  rfl

set_option maxRecDepth 100000 in
theorem sqMod_iterate_eq : sqMod^[128] 2 = JUMP_POLY := by
  decide!

/-- After `2 ^ 128` calls of `operator()` the state is the image by the polynomial
`JUMP_POLY`. -/
theorem iterate_two_pow_128 {g : Xoshiro256PlusPlus} (hg : g.WF) :
    step^[2 ^ 128] g = evalPoly 256 JUMP_POLY g := by
  rw [(iterate_two_pow_eq_evalPoly (fun g hg => evalPoly_charpoly hg) 128).2 g hg,
    sqMod_iterate_eq]

theorem and_two_pow (w n : Nat) : w &&& 2 ^ n = if w.testBit n then 2 ^ n else 0 := by
  apply Nat.eq_of_testBit_eq
  intro i
  rw [Nat.testBit_and, Nat.testBit_two_pow]
  by_cases h : n = i
  · subst h
    cases hb : w.testBit n <;> simp [Nat.testBit_two_pow]
  · split_ifs
    · rw [Nat.testBit_two_pow]; simp [h]
    · simp [h]

/-- The test `JUMP[i] & (1ULL << b)` of `jump()` reads bit `b` of the word. -/
theorem jump_test {w b : Nat} (hb : b < 64) : w &&& u64 (1 <<< b) ≠ 0 ↔ w.testBit b = true := by
  have h1 : u64 (1 <<< b) = 2 ^ b := by
    rw [Nat.one_shiftLeft]
    exact Nat.mod_eq_of_lt (Nat.pow_lt_pow_right (by decide) hb)
  rw [h1, and_two_pow]
  have hpos : 2 ^ b ≠ 0 := (Nat.two_pow_pos b).ne'
  cases w.testBit b <;> simp [hpos]

/-- The inner loop of `jump()` over the `n` low bits of word `i` of the table. -/
theorem jump_inner (i : Nat) (n : Nat) (hn : n ≤ 64) (acc gen : Xoshiro256PlusPlus)
    (hgen : gen.WF) :
    forLoop n (fun b l => jumpBody i b l) ⟨acc, gen⟩
      = ⟨xorState acc (evalPoly n (JUMP.getD i 0) gen), step^[n] gen⟩ := by
  induction n with
  | zero => simp [forLoop, evalPoly, xorState_zero]
  | succ n ih =>
    rw [forLoop_succ, ih (by omega)]
    unfold jumpBody
    simp only [Function.iterate_succ_apply', JumpLoop.mk.injEq, and_true]
    rw [evalPoly_succ_top hgen, ← xorState_assoc]
    by_cases hb : (JUMP.getD i 0).testBit n = true
    · rw [if_pos ((jump_test (by omega)).mpr hb), if_pos hb]
      rfl
    · rw [if_neg (fun h => hb ((jump_test (by omega)).mp h)), if_neg hb, xorState_zero]

theorem forLoop_four {σ : Type} (body : Nat → σ → σ) (st : σ) :
    forLoop 4 body st = body 3 (body 2 (body 1 (body 0 st))) := rfl

theorem jump_words_lt : ∀ i, JUMP.getD i 0 < 2 ^ 64 := by
  intro i
  unfold JUMP
  rcases i with _ | _ | _ | _ | _ | i <;> simp [List.getD]

/-- The state that `jump()` leaves is the map of the polynomial of the table. -/
theorem jump_eq_evalPoly {g : Xoshiro256PlusPlus} (hg : g.WF) :
    jump g = evalPoly 256 JUMP_TABLE_POLY g := by
  have h64 := iterate_step_WF hg 64
  have h128 := iterate_step_WF h64 64
  have h192 := iterate_step_WF h128 64
  have hword : ∀ (w k : Nat), w < 2 ^ 64 → k + 64 ≤ 256 →
      evalPoly 256 (w <<< k) g = evalPoly 64 w (step^[k] g) := by
    intro w k hw hk
    rw [show 256 = (256 - k) + k by omega, evalPoly_shiftLeft,
      evalPoly_of_lt hw (by omega : 64 ≤ 256 - k), evalPoly_iterate_step hg]
  unfold jump
  rw [show JUMP.length = 4 from rfl, forLoop_four]
  rw [jump_inner 0 64 le_rfl _ _ hg, jump_inner 1 64 le_rfl _ _ h64,
    jump_inner 2 64 le_rfl _ _ h128, jump_inner 3 64 le_rfl _ _ h192]
  simp only []
  unfold JUMP_TABLE_POLY
  rw [evalPoly_xor_poly hg, evalPoly_xor_poly hg, evalPoly_xor_poly hg,
    hword _ 192 (jump_words_lt 3) (by decide), hword _ 128 (jump_words_lt 2) (by decide),
    hword _ 64 (jump_words_lt 1) (by decide),
    evalPoly_of_lt (jump_words_lt 0) (by decide : 64 ≤ 256),
    show (⟨0, 0, 0, 0⟩ : Xoshiro256PlusPlus) = zero from rfl, zero_xorState,
    ← Function.iterate_add_apply, ← Function.iterate_add_apply]

theorem jump_table_poly : JUMP_TABLE_POLY = JUMP_POLY ^^^ (1 ^^^ 1 <<< 10) := by decide

theorem evalPoly_one (n : Nat) (g : Xoshiro256PlusPlus) : evalPoly (n + 1) 1 g = g := by
  rw [evalPoly_succ]
  simp [evalPoly_zero_poly, step_zero, xorState_zero]

/-- The state that `jump()` leaves, next to the state that `2 ^ 128` calls of
`operator()` leave: they differ by `g xor step^[10] g`, the map of the polynomial
`JUMP_TABLE_POLY xor JUMP_POLY = x ^ 10 + 1`. -/
theorem jump_eq_iterate_xor {g : Xoshiro256PlusPlus} (hg : g.WF) :
    jump g = xorState (step^[2 ^ 128] g) (xorState g (step^[10] g)) := by
  rw [jump_eq_evalPoly hg, jump_table_poly, evalPoly_xor_poly hg, evalPoly_xor_poly hg,
    ← iterate_two_pow_128 hg, evalPoly_one 255,
    show 256 = 246 + 10 by rfl, evalPoly_shiftLeft, evalPoly_one 245]

theorem init_zero_WF : (init 0).WF := by decide

set_option maxRecDepth 100000 in
theorem evalPoly_table_init_zero : evalPoly 256 JUMP_TABLE_POLY (init 0)
    = ⟨0x42e72fd7d842184a, 0x32033fb69231256a, 0xe2bd1bfd00d3061b, 0xf034d1540447b2c8⟩ := by
  decide!

set_option maxRecDepth 100000 in
theorem evalPoly_jump_poly_init_zero : evalPoly 256 JUMP_POLY (init 0)
    = ⟨0x879d839059e419cd, 0xbdf2bc3f36da7ea6, 0x96db53395002d090, 0x264cf0ca5fa93268⟩ := by
  decide!

/-- C7 fails on the code. From the state of the generator seeded with 0, `jump()`
leaves the state `(0x42e72fd7d842184a, 0x32033fb69231256a, 0xe2bd1bfd00d3061b,
0xf034d1540447b2c8)`, and `2 ^ 128` successive calls of `operator()` leave the state
`(0x879d839059e419cd, 0xbdf2bc3f36da7ea6, 0x96db53395002d090, 0x264cf0ca5fa93268)`:
the two differ. -/
theorem jump_ne_iterate_two_pow_128 :
    jump (init 0)
      = ⟨0x42e72fd7d842184a, 0x32033fb69231256a, 0xe2bd1bfd00d3061b, 0xf034d1540447b2c8⟩ ∧
    step^[2 ^ 128] (init 0)
      = ⟨0x879d839059e419cd, 0xbdf2bc3f36da7ea6, 0x96db53395002d090, 0x264cf0ca5fa93268⟩ ∧
    jump (init 0) ≠ step^[2 ^ 128] (init 0) := by
  have h1 := (jump_eq_evalPoly init_zero_WF).trans evalPoly_table_init_zero
  have h2 := (iterate_two_pow_128 init_zero_WF).trans evalPoly_jump_poly_init_zero
  refine ⟨h1, h2, ?_⟩
  rw [h1, h2]
  decide

theorem init_WF (seed : Nat) : (init seed).WF := by
  have h : init seed = ⟨mix seed, mix (mix seed), mix (mix (mix seed)),
      mix (mix (mix (mix seed)))⟩ := rfl
  rw [h]
  exact ⟨mix_lt _, mix_lt _, mix_lt _, mix_lt _⟩

theorem generate_fst (n : Nat) (g : Xoshiro256PlusPlus) :
    (generate n g).1 = (List.range n).map (fun k => (next (step^[k] g)).1) := by
  induction n generalizing g with
  | zero => rfl
  | succ n ih =>
    rw [List.range_succ_eq_map, List.map_cons, List.map_map]
    show (next g).1 :: (generate n (next g).2).1 = _
    rw [ih]
    rfl

theorem generate_snd (n : Nat) (g : Xoshiro256PlusPlus) :
    (generate n g).2 = step^[n] g := by
  induction n generalizing g with
  | zero => rfl
  | succ n ih =>
    show (generate n (next g).2).2 = _
    rw [ih]
    rfl

/-- C12. For every seed `s` and every `n`, two generators constructed with the same
seed return the same first `n` values from `operator()`; the `k`-th value is
`(rotl(s0 + s3, 23) + s0) mod 2^64` read on the `k`-th iterate of the transition from
the state that the constructor builds from `s`, a function of the seed alone, and a
seed counts modulo `2^64`. -/
theorem same_seed_same_outputs (s n : Nat) :
    (∀ g1 g2 : Xoshiro256PlusPlus, g1 = init s → g2 = init s →
      (generate n g1).1 = (generate n g2).1) ∧
    (generate n (init s)).1 = (List.range n).map (fun k => (next (step^[k] (init s))).1) ∧
    (generate n (init s)).1.length = n ∧
    (generate n (init s)).2 = step^[n] (init s) ∧
    (generate n (init (u64 s))).1 = (generate n (init s)).1 := by
  refine ⟨?_, generate_fst n _, ?_, generate_snd n _, ?_⟩
  · intro g1 g2 h1 h2
    rw [h1, h2]
  · rw [generate_fst, List.length_map, List.length_range]
  · have h : init (u64 s) = init s := by
      unfold init u64
      simp only [Nat.mod_add_mod]
    rw [h]

theorem foldr_xor_WF {f : Nat → Xoshiro256PlusPlus} (hf : ∀ k, (f k).WF) (l : List Nat) :
    (l.foldr (fun k acc => xorState (f k) acc) zero).WF := by
  induction l with
  | nil => exact zero_WF
  | cons a l ih => exact xorState_WF (hf a) ih

theorem step_foldr_xor {f : Nat → Xoshiro256PlusPlus} (hf : ∀ k, (f k).WF) (l : List Nat) :
    step (l.foldr (fun k acc => xorState (f k) acc) zero)
      = l.foldr (fun k acc => xorState (step (f k)) acc) zero := by
  induction l with
  | nil => exact step_zero
  | cons a l ih =>
    rw [List.foldr_cons, List.foldr_cons, step_xorState (hf a) (foldr_xor_WF hf l), ih]

/-- The state `p(T) g` is the exclusive or of the iterates `T^k g` for the bits `k` set
in `p`. -/
theorem evalPoly_eq_foldr {g : Xoshiro256PlusPlus} (hg : g.WF) (n p : Nat) :
    evalPoly n p g = (List.range n).foldr
      (fun k acc => xorState (if p.testBit k then step^[k] g else zero) acc) zero := by
  induction n generalizing p with
  | zero => rfl
  | succ n ih =>
    have hf : ∀ k, (if (p / 2).testBit k then step^[k] g else zero).WF := by
      intro k
      split_ifs
      · exact iterate_step_WF hg k
      · exact zero_WF
    rw [evalPoly_succ, ih, step_foldr_xor hf, List.range_succ_eq_map, List.foldr_cons,
      List.foldr_map]
    congr 1
    congr 1
    funext k acc
    rw [step_ite, Nat.testBit_succ, Function.iterate_succ_apply']

set_option maxRecDepth 100000 in
theorem jump_table_poly_testBit : ∀ k, k < 256 →
    JUMP_TABLE_POLY.testBit k = (JUMP.getD (k / 64) 0).testBit (k % 64) := by
  decide

theorem foldr_xor_congr {f h : Nat → Xoshiro256PlusPlus} (l : List Nat)
    (hfh : ∀ k, k ∈ l → f k = h k) :
    l.foldr (fun k acc => xorState (f k) acc) zero
      = l.foldr (fun k acc => xorState (h k) acc) zero := by
  induction l with
  | nil => rfl
  | cons a l ih =>
    rw [List.foldr_cons, List.foldr_cons, hfh a (List.mem_cons_self _ _),
      ih (fun k hk => hfh k (List.mem_cons_of_mem _ hk))]

/-- C16. For every state, calling `jump()` and then `operator()` leaves the same state
as calling `operator()` and then `jump()`: `jump()` leaves the exclusive or of the
iterates `k = 64 * i + b` of the transition for which bit `b` of `JUMP[i]` is set, and
the transition is linear for the exclusive or. -/
theorem jump_step_comm (g : Xoshiro256PlusPlus) (hg : g.WF) :
    (next (jump g)).2 = jump (next g).2 ∧
    jump g = (List.range 256).foldr (fun k acc =>
      xorState (if (JUMP.getD (k / 64) 0).testBit (k % 64) then step^[k] g else zero) acc)
      zero ∧
    (∀ a b : Xoshiro256PlusPlus, a.WF → b.WF →
      (next (xorState a b)).2 = xorState (next a).2 (next b).2) := by
  refine ⟨?_, ?_, fun a b ha hb => step_xorState ha hb⟩
  · show step (jump g) = jump (step g)
    rw [jump_eq_evalPoly hg, jump_eq_evalPoly (step_WF hg), evalPoly_step hg]
  · rw [jump_eq_evalPoly hg, evalPoly_eq_foldr hg]
    apply foldr_xor_congr
    intro k hk
    rw [jump_table_poly_testBit k (List.mem_range.mp hk)]

/-- Witness of C16 at the state built from the seed 0. -/
theorem jump_step_comm_witness :
    (init 0).WF ∧ (next (jump (init 0))).2 = jump (next (init 0)).2 :=
  ⟨init_zero_WF, (jump_step_comm (init 0) init_zero_WF).1⟩

theorem rotl_eq_zero {x k : Nat} (hx : x < 2 ^ 64) (hk0 : 0 < k) (hk : k < 64)
    (h : rotl x k = 0) : x = 0 := by
  apply Nat.eq_of_testBit_eq
  intro i
  rw [Nat.zero_testBit]
  by_cases hi : i < 64
  · have hj : (i + k) % 64 < 64 := Nat.mod_lt _ (by decide)
    have e := testBit_rotl hx hk0 hk hj
    rw [h, Nat.zero_testBit] at e
    have hij : ((i + k) % 64 + 64 - k) % 64 = i := by omega
    rw [hij] at e
    exact e.symm
  · exact testBit_eq_false_of_lt hx (by omega)

theorem eq_zero_of_eq_shiftLeft {x k : Nat} (hk0 : 0 < k) (h : x = u64 (x <<< k)) : x = 0 := by
  apply Nat.eq_of_testBit_eq
  intro i
  rw [Nat.zero_testBit]
  induction i using Nat.strong_induction_on with
  | _ i ih =>
    rw [h]
    unfold u64
    rw [Nat.testBit_mod_two_pow, Nat.testBit_shiftLeft]
    by_cases hik : k ≤ i
    · rw [ih (i - k) (by omega)]
      simp
    · simp [hik]

theorem xorState_eq_zero {a b : Xoshiro256PlusPlus} (h : xorState a b = zero) : a = b := by
  unfold xorState zero at h
  injection h with h0 h1 h2 h3
  cases a
  cases b
  simp only at h0 h1 h2 h3
  rw [Nat.xor_eq_zero.mp h0, Nat.xor_eq_zero.mp h1, Nat.xor_eq_zero.mp h2,
    Nat.xor_eq_zero.mp h3]

/-- Only the all-zero state is sent to the all-zero state. -/
theorem eq_zero_of_step_eq_zero {g : Xoshiro256PlusPlus} (hg : g.WF) (h : step g = zero) :
    g = zero := by
  obtain ⟨g0, g1, g2, g3⟩ := hg
  rw [step_eq] at h
  unfold zero at h
  injection h with h0 h1 h2 h3
  have e31 : g.s3 ^^^ g.s1 = 0 :=
    rotl_eq_zero (Nat.xor_lt_two_pow g3 g1) (by decide) (by decide) h3
  rw [e31, Nat.xor_zero] at h0
  rw [h0, Nat.xor_zero] at h1 h2
  have e12 : g.s1 = g.s2 := Nat.xor_eq_zero.mp h1
  have e2 : g.s2 = u64 (g.s1 <<< 17) := Nat.xor_eq_zero.mp h2
  have e1 : g.s1 = 0 := eq_zero_of_eq_shiftLeft (by decide) (e12.trans e2)
  have e3 : g.s3 = 0 := by
    rw [e1, Nat.xor_zero] at e31
    exact e31
  cases g
  simp only at h0 e1 e12 e3
  rw [h0, ← e12, e1, e3]
  rfl

theorem step_injective_of_WF {a b : Xoshiro256PlusPlus} (ha : a.WF) (hb : b.WF)
    (h : step a = step b) : a = b := by
  apply xorState_eq_zero
  apply eq_zero_of_step_eq_zero (xorState_WF ha hb)
  rw [step_xorState ha hb, h, xorState_self]

theorem iterate_step_ne_zero {g : Xoshiro256PlusPlus} (hg : g.WF) (h : g ≠ zero) (n : Nat) :
    step^[n] g ≠ zero := by
  induction n with
  | zero => exact h
  | succ n ih =>
    rw [Function.iterate_succ_apply']
    intro h0
    exact ih (eq_zero_of_step_eq_zero (iterate_step_WF hg n) h0)

/-- C14. The state transition of `operator()` is injective on the states of four
64-bit words and maps a state to the all-zero state only if that state is all-zero;
hence a generator whose state is not all-zero never reaches the all-zero state,
whatever the number of calls of `operator()`. -/
theorem step_injective_and_zero_free (a b : Xoshiro256PlusPlus) (ha : a.WF) (hb : b.WF) :
    ((next a).2 = (next b).2 → a = b) ∧
    ((next a).2 = zero → a = zero) ∧
    (a ≠ zero → ∀ n, (generate n a).2 ≠ zero ∧ (generate n a).2.WF) := by
  refine ⟨step_injective_of_WF ha hb, eq_zero_of_step_eq_zero ha, ?_⟩
  intro h n
  rw [generate_snd]
  exact ⟨iterate_step_ne_zero ha h n, iterate_step_WF ha n⟩

/-- Witness of C14 at the states built from the seeds 0 and 1. -/
theorem step_injective_and_zero_free_witness :
    (init 0).WF ∧ (init 1).WF ∧
    (((next (init 0)).2 = (next (init 1)).2 → init 0 = init 1) ∧
    ((next (init 0)).2 = zero → init 0 = zero) ∧
    (init 0 ≠ zero → ∀ n, (generate n (init 0)).2 ≠ zero ∧ (generate n (init 0)).2.WF)) :=
  ⟨init_WF 0, init_WF 1, step_injective_and_zero_free (init 0) (init 1) (init_WF 0) (init_WF 1)⟩

theorem xorshift_injective {a b k : Nat} (ha : a < 2 ^ 64) (hb : b < 2 ^ 64) (hk : 0 < k)
    (h : a ^^^ (a >>> k) = b ^^^ (b >>> k)) : a = b := by
  apply Nat.eq_of_testBit_eq
  have key : ∀ n i, 64 - i ≤ n → a.testBit i = b.testBit i := by
    intro n
    induction n with
    | zero =>
      intro i hi
      rw [testBit_eq_false_of_lt ha (by omega), testBit_eq_false_of_lt hb (by omega)]
    | succ n ih =>
      intro i hi
      have e := congrArg (fun x => x.testBit i) h
      simp only [Nat.testBit_xor, Nat.testBit_shiftRight] at e
      rw [ih (k + i) (by omega)] at e
      revert e
      cases a.testBit i <;> cases b.testBit i <;> cases b.testBit (k + i) <;> simp
  exact fun i => key (64 - i) i le_rfl

theorem mul_odd_injective {a b c d : Nat} (hcd : c * d % 2 ^ 64 = 1) (ha : a < 2 ^ 64)
    (hb : b < 2 ^ 64) (h : u64 (a * c) = u64 (b * c)) : a = b := by
  unfold u64 at h
  have h1 : a * c ≡ b * c [MOD 2 ^ 64] := h
  have h2 : c * d ≡ 1 [MOD 2 ^ 64] := hcd
  have h3 : a * c * d ≡ b * c * d [MOD 2 ^ 64] := h1.mul_right d
  have h4 : ∀ x : Nat, x * c * d ≡ x [MOD 2 ^ 64] := by
    intro x
    have := (Nat.ModEq.refl x).mul h2
    rw [mul_one, ← mul_assoc] at this
    exact this
  have h5 : a ≡ b [MOD 2 ^ 64] := ((h4 a).symm.trans h3).trans (h4 b)
  unfold Nat.ModEq at h5
  rwa [Nat.mod_eq_of_lt ha, Nat.mod_eq_of_lt hb] at h5

theorem xorshift_lt {z : Nat} (k : Nat) (hz : z < 2 ^ 64) : z ^^^ (z >>> k) < 2 ^ 64 := by
  apply Nat.xor_lt_two_pow hz
  rw [Nat.shiftRight_eq_div_pow]
  exact lt_of_le_of_lt (Nat.div_le_self _ _) hz

theorem mul_inverse_1 : 0xbf58476d1ce4e5b9 * 0x96de1b173f119089 % 2 ^ 64 = 1 := by decide

theorem mul_inverse_2 : 0x94d049bb133111eb * 0x319642b2d24d8ec3 % 2 ^ 64 = 1 := by decide

theorem mix_round_injective {a b c d k : Nat} (hcd : c * d % 2 ^ 64 = 1) (hk : 0 < k)
    (ha : a < 2 ^ 64) (hb : b < 2 ^ 64)
    (h : (a ^^^ (a >>> k)) * c % 2 ^ 64 = (b ^^^ (b >>> k)) * c % 2 ^ 64) : a = b :=
  xorshift_injective ha hb hk (mul_odd_injective hcd (xorshift_lt k ha) (xorshift_lt k hb) h)

theorem add_mod_injective {x y c : Nat} (hx : x < 2 ^ 64) (hy : y < 2 ^ 64)
    (h : (x + c) % 2 ^ 64 = (y + c) % 2 ^ 64) : x = y := by
  have h1 : x + c ≡ y + c [MOD 2 ^ 64] := h
  have h2 : x ≡ y [MOD 2 ^ 64] := Nat.ModEq.add_right_cancel' c h1
  unfold Nat.ModEq at h2
  rwa [Nat.mod_eq_of_lt hx, Nat.mod_eq_of_lt hy] at h2

/-- The mixing function is injective on the 64-bit words. -/
theorem mix_injective {x y : Nat} (hx : x < 2 ^ 64) (hy : y < 2 ^ 64) (h : mix x = mix y) :
    x = y := by
  have hm : ∀ z : Nat, z % 2 ^ 64 < 2 ^ 64 := fun z => Nat.mod_lt _ (Nat.two_pow_pos _)
  have h1 := xorshift_injective (hm _) (hm _) (by decide) h
  have h2 := mix_round_injective mul_inverse_2 (by decide) (hm _) (hm _) h1
  have h3 := mix_round_injective mul_inverse_1 (by decide) (hm _) (hm _) h2
  exact add_mod_injective hx hy h3

theorem mix_mod (x : Nat) : mix (x % 2 ^ 64) = mix x := by
  unfold mix
  simp only [Nat.mod_add_mod]

/-- The mixing function is onto the 64-bit words. -/
theorem mix_surjective {y : Nat} (hy : y < 2 ^ 64) : ∃ x, x < 2 ^ 64 ∧ mix x = y := by
  have hinj : Function.Injective (fun x : Fin (2 ^ 64) => (⟨mix x.1, mix_lt x.1⟩ : Fin (2 ^ 64))) := by
    intro a b hab
    exact Fin.ext (mix_injective a.2 b.2 (congrArg Fin.val hab))
  obtain ⟨x, hx⟩ := (Finite.injective_iff_surjective.mp hinj) ⟨y, hy⟩
  exact ⟨x.1, x.2, congrArg Fin.val hx⟩

theorem init_s0 (seed : Nat) : (init seed).s0 = mix seed := rfl

/-- C15. The map from the 64-bit seed to the initial state is injective: two distinct
seeds give two distinct states, already their `s[0]` words differ, because the mixing
function is a bijection on the 64-bit words; so the generators seeded with
`base_seed + thread_id` for distinct thread ids below `2^64` start from distinct
states. -/
theorem init_injective (x y : Nat) (hx : x < 2 ^ 64) (hy : y < 2 ^ 64) :
    ((init x).s0 = (init y).s0 → x = y) ∧
    (x ≠ y → init x ≠ init y) ∧
    (init x).s0 = mix x ∧
    (mix x = mix y → x = y) ∧
    mix x < 2 ^ 64 ∧
    (∃ z, z < 2 ^ 64 ∧ mix z = x) ∧
    (∀ base_seed : Nat, x ≠ y →
      Engine.threadRng base_seed x ≠ Engine.threadRng base_seed y) := by
  refine ⟨fun h => mix_injective hx hy h, ?_, rfl, mix_injective hx hy, mix_lt x,
    mix_surjective hx, ?_⟩
  · intro hxy h
    exact hxy (mix_injective hx hy (congrArg Xoshiro256PlusPlus.s0 h))
  · intro base_seed hxy h
    have h0 : mix (u64 (base_seed + x)) = mix (u64 (base_seed + y)) :=
      congrArg Xoshiro256PlusPlus.s0 h
    have h1 := mix_injective (u64_lt _) (u64_lt _) h0
    unfold u64 at h1
    rw [Nat.add_comm base_seed x, Nat.add_comm base_seed y] at h1
    exact hxy (add_mod_injective hx hy h1)

/-- Witness of C15 at the seeds 0 and 1. -/
theorem init_injective_witness :
    ((init 0).s0 = (init 1).s0 → 0 = 1) ∧
    ((0 : Nat) ≠ 1 → init 0 ≠ init 1) ∧
    (init 0).s0 = mix 0 ∧
    (mix 0 = mix 1 → 0 = 1) ∧
    mix 0 < 2 ^ 64 ∧
    (∃ z, z < 2 ^ 64 ∧ mix z = 0) ∧
    (∀ base_seed : Nat, (0 : Nat) ≠ 1 →
      Engine.threadRng base_seed 0 ≠ Engine.threadRng base_seed 1) :=
  init_injective 0 1 (by decide) (by decide)

end Xoshiro256PlusPlus

namespace ParallelUtils

theorem loopCalls_of_le {a b : Int} (h : b ≤ a) : loopCalls a b = [] := by
  unfold loopCalls
  have : (b - a).toNat = 0 := by omega
  rw [this]; rfl

theorem loopCalls_append {a b c : Int} (hab : a ≤ b) (hbc : b ≤ c) :
    loopCalls a b ++ loopCalls b c = loopCalls a c := by
  unfold loopCalls
  have h : (c - a).toNat = (b - a).toNat + (c - b).toNat := by omega
  rw [h, List.range_add, List.map_append, List.map_map]
  congr 1
  apply List.map_congr_left
  intro k _
  simp only [Function.comp]
  push_cast
  omega

theorem mem_loopCalls {a b i : Int} : i ∈ loopCalls a b ↔ a ≤ i ∧ i < b := by
  unfold loopCalls
  simp only [List.mem_map, List.mem_range]
  constructor
  · rintro ⟨k, hk, rfl⟩
    omega
  · rintro ⟨h1, h2⟩
    exact ⟨(i - a).toNat, by omega, by omega⟩

theorem nodup_loopCalls (a b : Int) : (loopCalls a b).Nodup := by
  unfold loopCalls
  apply List.Nodup.map _ (List.nodup_range _)
  intro x y h
  simpa using h

theorem count_loopCalls (a b i : Int) :
    (loopCalls a b).count i = if a ≤ i ∧ i < b then 1 else 0 := by
  split_ifs with h
  · exact List.count_eq_one_of_mem (nodup_loopCalls a b) (mem_loopCalls.mpr h)
  · exact List.count_eq_zero.mpr (fun hm => h (mem_loopCalls.mp hm))

/-- The chunk size when there is work: at least one, and `n` chunks cover the range. -/
theorem chunk_size_pos {w n : Int} (hw : 0 < w) (hn : 0 < n) :
    0 < Int.tdiv (w + n - 1) n ∧ w ≤ n * Int.tdiv (w + n - 1) n := by
  rw [Int.tdiv_eq_ediv (by omega) (by omega)]
  have h1 := Int.ediv_add_emod (w + n - 1) n
  have h2 := Int.emod_lt_of_pos (w + n - 1) hn
  have h3 := Int.emod_nonneg (w + n - 1) (by omega : n ≠ 0)
  constructor
  · by_contra hc
    have : (w + n - 1) / n ≤ 0 := by omega
    nlinarith
  · omega

/-- The chunk size when there is no work: no worker index below `n` reaches the range. -/
theorem chunk_size_nonpos {w n t : Int} (hw : w ≤ 0) (hn : 0 < n) (ht0 : 0 ≤ t) (ht : t < n) :
    w ≤ t * Int.tdiv (w + n - 1) n := by
  by_cases h : 0 ≤ w + n - 1
  · rw [Int.tdiv_eq_ediv h (by omega)]
    have : (w + n - 1) / n = 0 := Int.ediv_eq_zero_of_lt h (by omega)
    rw [this]; omega
  · have e : w + n - 1 = -(-(w + n - 1)) := by omega
    rw [e, Int.neg_tdiv, Int.tdiv_eq_ediv (by omega) (by omega)]
    have h1 := Int.ediv_add_emod (-(w + n - 1)) n
    have h3 := Int.emod_nonneg (-(w + n - 1)) (by omega : n ≠ 0)
    have hq : 0 ≤ (-(w + n - 1)) / n := Int.ediv_nonneg (by omega) (by omega)
    nlinarith

theorem calls_eq_loopCalls (hc : Nat) (start end_ : Int) :
    calls hc start end_ = loopCalls start end_ := by
  unfold calls ParallelFor
  generalize hn : (if hc = 0 then 1 else hc : Nat) = n
  have hnpos : 0 < n := by
    rw [← hn]; split_ifs <;> omega
  simp only []
  generalize hcs : Int.tdiv (end_ - start + (n : Int) - 1) n = cs
  by_cases hw : 0 < end_ - start
  · obtain ⟨hpos, hcov⟩ := chunk_size_pos hw (by exact_mod_cast hnpos : (0 : Int) < n)
    rw [hcs] at hpos hcov
    have inv : ∀ t : Nat, (forLoop t (fun t threads =>
        if start + (t : Int) * cs < end_ then
          threads ++ [loopCalls (start + t * cs) (min end_ (start + t * cs + cs))]
        else threads) []).flatten = loopCalls start (min end_ (start + t * cs)) := by
      intro t
      induction t with
      | zero =>
        simp only [forLoop, List.flatten_nil]
        rw [loopCalls_of_le]
        simp
      | succ t ih =>
        simp only [forLoop]
        have hmono : (t : Int) * cs ≤ ((t + 1 : Nat) : Int) * cs := by push_cast; nlinarith
        have hstep : start + (t : Int) * cs + cs = start + ((t + 1 : Nat) : Int) * cs := by
          push_cast; ring
        have ht0 : 0 ≤ (t : Int) * cs := by positivity
        split_ifs with hlt
        · rw [List.flatten_append, ih, min_eq_right (le_of_lt hlt)]
          simp only [List.flatten_cons, List.flatten_nil, List.append_nil]
          rw [loopCalls_append (by omega) (by rw [hstep]; exact le_min (by omega) (by omega)), hstep]
        · rw [ih, min_eq_left (by omega), min_eq_left (by omega)]
    rw [inv n, min_eq_left (by omega)]
  · have inv : ∀ t : Nat, t ≤ n → forLoop t (fun t threads =>
        if start + (t : Int) * cs < end_ then
          threads ++ [loopCalls (start + t * cs) (min end_ (start + t * cs + cs))]
        else threads) [] = [] := by
      intro t
      induction t with
      | zero => intro _; rfl
      | succ t ih =>
        intro ht
        simp only [forLoop]
        have := chunk_size_nonpos (w := end_ - start) (n := n) (t := t) (by omega)
          (by exact_mod_cast hnpos) (by omega) (by exact_mod_cast ht)
        rw [hcs] at this
        rw [if_neg (by omega)]
        exact ih (by omega)
    rw [inv n le_rfl, loopCalls_of_le (by omega)]
    rfl

/-- C4. In the thread-pool branch of `ParallelFor`, for every `start`, `end` and
every value of `hardware_concurrency` (0 being replaced by 1), `func` is called
exactly once for every integer `i` with `start <= i < end` and for no other
integer; in particular it is never called, and no worker is spawned, when
`start >= end`. -/
theorem ParallelFor_calls_each_index_once (hardware_concurrency : Nat) (start end_ : Int) :
    (∀ i : Int, (calls hardware_concurrency start end_).count i
        = if start ≤ i ∧ i < end_ then 1 else 0) ∧
    (end_ ≤ start → calls hardware_concurrency start end_ = []) := by
  rw [calls_eq_loopCalls]
  exact ⟨fun i => count_loopCalls start end_ i, fun h => loopCalls_of_le h⟩

end ParallelUtils

namespace Engine

theorem priceDraw_rng {R : Type} (d : Nat → R) (m : Nat) (l : PriceLocals R) :
    (forLoop m (fun k (l : PriceLocals R) =>
      { l with rands := Function.update l.rands k (d l.rng), rng := l.rng + 1 }) l).rng
      = l.rng + m := by
  induction m with
  | zero => rfl
  | succ m ih => rw [forLoop_succ]; simp only [ih]; omega

theorem priceDraw_rands {R : Type} (d : Nat → R) (m : Nat) (l : PriceLocals R) (k : Nat) :
    (forLoop m (fun k (l : PriceLocals R) =>
      { l with rands := Function.update l.rands k (d l.rng), rng := l.rng + 1 }) l).rands k
      = if k < m then d (l.rng + k) else l.rands k := by
  induction m with
  | zero => simp [forLoop]
  | succ m ih =>
    rw [forLoop_succ]
    simp only [priceDraw_rng, Function.update_apply, ih]
    split_ifs <;> first | rfl | omega | (subst_vars; rfl)

theorem priceDraw_spots {R : Type} (d : Nat → R) (m : Nat) (l : PriceLocals R) :
    (forLoop m (fun k (l : PriceLocals R) =>
      { l with rands := Function.update l.rands k (d l.rng), rng := l.rng + 1 }) l).spots
      = l.spots := by
  induction m with
  | zero => rfl
  | succ m ih => rw [forLoop_succ]; exact ih

theorem priceDraw_total {R : Type} (d : Nat → R) (m : Nat) (l : PriceLocals R) :
    (forLoop m (fun k (l : PriceLocals R) =>
      { l with rands := Function.update l.rands k (d l.rng), rng := l.rng + 1 }) l).total_payoff
      = l.total_payoff := by
  induction m with
  | zero => rfl
  | succ m ih => rw [forLoop_succ]; exact ih

theorem priceUpdate_fields {R : Type} [LinearOrderedField R] (f : R → R) (m : Nat)
    (l : PriceLocals R) :
    let l1 := forLoop m (fun k (l : PriceLocals R) =>
      let shock := f (l.rands k)
      { l with spots := Function.update l.spots k (l.spots k * shock) }) l
    l1.rng = l.rng ∧ l1.rands = l.rands ∧ l1.total_payoff = l.total_payoff ∧
      ∀ k, l1.spots k = if k < m then l.spots k * f (l.rands k) else l.spots k := by
  induction m with
  | zero => simp [forLoop]
  | succ m ih =>
    obtain ⟨h1, h2, h3, h4⟩ := ih
    simp only [forLoop_succ]
    refine ⟨h1, h2, h3, ?_⟩
    intro k
    simp only [Function.update_apply, h2, h4]
    split_ifs <;> first | rfl | omega | (subst_vars; rfl)

theorem priceStep_fields {R : Type} [LinearOrderedField R] (exp : R → R) (e : Engine R)
    (smp : Sampler R)
    (drift_step vol_step df : R) (m : Nat) (l : PriceLocals R) :
    let l1 := priceStep exp e smp drift_step vol_step df m l
    l1.rng = l.rng + m ∧ l1.total_payoff = l.total_payoff ∧
      ∀ k, l1.spots k = if k < m then
        l.spots k * exp (drift_step + vol_step * innovation e smp df (l.rng + k))
        else l.spots k := by
  unfold priceStep innovation
  split_ifs with hd
  · obtain ⟨h1, h2, h3, h4⟩ := priceUpdate_fields (fun r => exp (drift_step + vol_step * r)) m
      (forLoop m (fun k (l : PriceLocals R) =>
        { l with rands := Function.update l.rands k (smp.normal_dist l.rng), rng := l.rng + 1 }) l)
    refine ⟨h1.trans (priceDraw_rng _ _ _), h3.trans (priceDraw_total _ _ _), ?_⟩
    intro k
    rw [h4 k, priceDraw_spots, priceDraw_rands]
    split_ifs <;> rfl
  · obtain ⟨h1, h2, h3, h4⟩ := priceUpdate_fields (fun r => exp (drift_step + vol_step * r)) m
      (forLoop m (fun k (l : PriceLocals R) =>
        { l with rands := Function.update l.rands k (smp.t_dist df l.rng), rng := l.rng + 1 }) l)
    refine ⟨h1.trans (priceDraw_rng _ _ _), h3.trans (priceDraw_total _ _ _), ?_⟩
    intro k
    rw [h4 k, priceDraw_spots, priceDraw_rands]
    split_ifs <;> rfl

theorem priceStepLoop_fields {R : Type} [LinearOrderedField R] (exp : R → R) (e : Engine R)
    (smp : Sampler R)
    (drift_step vol_step df : R) (m n : Nat) (l : PriceLocals R) :
    let l1 := forLoop n (fun _ l => priceStep exp e smp drift_step vol_step df m l) l
    l1.rng = l.rng + n * m ∧ l1.total_payoff = l.total_payoff ∧
      ∀ k, l1.spots k = if k < m then
        l.spots k * ∏ s in Finset.range n,
          exp (drift_step + vol_step * innovation e smp df (l.rng + s * m + k))
        else l.spots k := by
  induction n with
  | zero => simp [forLoop]
  | succ n ih =>
    obtain ⟨h1, h2, h3⟩ := ih
    obtain ⟨g1, g2, g3⟩ := priceStep_fields exp e smp drift_step vol_step df m
      (forLoop n (fun _ l => priceStep exp e smp drift_step vol_step df m l) l)
    simp only [forLoop_succ]
    refine ⟨by rw [g1, h1]; ring, g2.trans h2, ?_⟩
    intro k
    rw [g3 k, h3 k, h1]
    split_ifs
    · rw [Finset.prod_range_succ, mul_assoc]
    · rfl

theorem priceBlock_fields {R : Type} [LinearOrderedField R] (exp : R → R) (e : Engine R)
    (smp : Sampler R)
    (drift_step vol_step df : R) (i : Nat) (l : PriceLocals R) :
    let m := min BLOCK_SIZE (e.params_.paths - i)
    let l1 := priceBlock exp e smp drift_step vol_step df i l
    l1.rng = l.rng + e.params_.steps * m ∧
    l1.total_payoff = l.total_payoff + ∑ k in Finset.range m,
      e.payoff_ (e.params_.spot * ∏ s in Finset.range e.params_.steps,
        exp (drift_step + vol_step * innovation e smp df (l.rng + s * m + k))) := by
  intro m
  obtain ⟨h1, h2, h3⟩ := priceStepLoop_fields exp e smp drift_step vol_step df m e.params_.steps
    { l with spots := fun k => if k < m then e.params_.spot else l.spots k }
  simp only [priceBlock, priceSimulate]
  refine ⟨h1, ?_⟩
  rw [h2, forLoop_add_eq_sum, zero_add]
  congr 1
  apply Finset.sum_congr rfl
  intro k hk
  have hk2 : k < m := Finset.mem_range.mp hk
  rw [h3 k]
  simp only [hk2, if_true]

/-- Inside the block that starts at `i`, path `i + k` draws at rank
`steps * i + s * m + k`, `m` being the size of the block. -/
theorem drawIndex_block (paths steps i k s : Nat) (hi : BLOCK_SIZE ∣ i)
    (hk : k < min BLOCK_SIZE (paths - i)) :
    drawIndex paths steps (i + k) s
      = steps * i + s * min BLOCK_SIZE (paths - i) + k := by
  obtain ⟨q, rfl⟩ := hi
  have hk2 : k < BLOCK_SIZE := lt_of_lt_of_le hk (min_le_left _ _)
  unfold drawIndex
  unfold BLOCK_SIZE at *
  have h1 : (1024 * q + k) / 1024 * 1024 = 1024 * q := by omega
  have h2 : (1024 * q + k) % 1024 = k := by omega
  rw [h1, h2]

theorem priceLoop_total {R : Type} [LinearOrderedField R] (exp : R → R) (e : Engine R)
    (smp : Sampler R) (drift_step vol_step df : R) :
    (stridedLoop BLOCK_SIZE (by decide) e.params_.paths
      (priceBlock exp e smp drift_step vol_step df) 0
      ⟨0, fun _ => 0, fun _ => 0, 0⟩).total_payoff
      = ∑ p in Finset.range e.params_.paths,
          pathPayoff exp e smp drift_step vol_step df e.params_.spot p := by
  obtain ⟨j, hj, -, -, hinv⟩ := stridedLoop_invariant BLOCK_SIZE (by decide) e.params_.paths
    (priceBlock exp e smp drift_step vol_step df)
    (fun i l => BLOCK_SIZE ∣ i ∧ l.rng = e.params_.steps * min i e.params_.paths ∧
      l.total_payoff = ∑ p in Finset.range (min i e.params_.paths),
        pathPayoff exp e smp drift_step vol_step df e.params_.spot p)
    (by
      rintro i l hi ⟨hdvd, hrng, htot⟩
      obtain ⟨g1, g2⟩ := priceBlock_fields exp e smp drift_step vol_step df i l
      have hmin : min (i + BLOCK_SIZE) e.params_.paths
          = min i e.params_.paths + min BLOCK_SIZE (e.params_.paths - i) := by
        unfold BLOCK_SIZE; omega
      have hmin2 : min i e.params_.paths = i := by omega
      refine ⟨Dvd.dvd.add hdvd (dvd_refl _), ?_, ?_⟩
      · rw [g1, hrng, hmin, mul_add]
      · rw [g2, htot, hmin, Finset.sum_range_add, hmin2]
        congr 1
        apply Finset.sum_congr rfl
        intro k hk
        unfold pathPayoff
        congr 2
        apply Finset.prod_congr rfl
        intro s _
        rw [drawIndex_block _ _ _ _ s hdvd (Finset.mem_range.mp hk), hrng, hmin2])
    e.params_.paths 0 ⟨0, fun _ => 0, fun _ => 0, 0⟩ (by omega)
    ⟨dvd_zero _, by simp, by simp⟩
  rw [hinv, min_eq_right hj]

theorem mul_add_lt_mul {s t m k : Nat} (h : s < t) (hk : k < m) : s * m + k < t * m := by
  have h1 : (s + 1) * m ≤ t * m := Nat.mul_le_mul_right m h
  have h2 : (s + 1) * m = s * m + m := by ring
  omega

theorem drawIndex_lt_of_block_lt {paths steps p s q t : Nat} (hq : q < paths)
    (hs : s < steps) (hb : p / BLOCK_SIZE < q / BLOCK_SIZE) :
    drawIndex paths steps p s < drawIndex paths steps q t := by
  unfold drawIndex
  unfold BLOCK_SIZE at *
  have hm : min 1024 (paths - p / 1024 * 1024) = 1024 := by omega
  rw [hm]
  have h1 : s * 1024 + p % 1024 < steps * 1024 := mul_add_lt_mul hs (Nat.mod_lt _ (by decide))
  have h2 : steps * (p / 1024 * 1024 + 1024) ≤ steps * (q / 1024 * 1024) :=
    Nat.mul_le_mul_left steps (by omega)
  rw [Nat.mul_add] at h2
  omega

/-- Two different (path, step) pairs draw at different ranks. -/
theorem drawIndex_injective {paths steps p s q t : Nat} (hp : p < paths) (hq : q < paths)
    (hs : s < steps) (ht : t < steps)
    (h : drawIndex paths steps p s = drawIndex paths steps q t) : p = q ∧ s = t := by
  have hb : p / BLOCK_SIZE = q / BLOCK_SIZE := by
    rcases lt_trichotomy (p / BLOCK_SIZE) (q / BLOCK_SIZE) with h1 | h1 | h1
    · exact absurd h (ne_of_lt (drawIndex_lt_of_block_lt hq hs h1))
    · exact h1
    · exact absurd h.symm (ne_of_lt (drawIndex_lt_of_block_lt hp ht h1))
  unfold drawIndex at h
  rw [hb] at h
  unfold BLOCK_SIZE at *
  generalize hm : min 1024 (paths - q / 1024 * 1024) = m at h
  have hpm : p % 1024 < m := by omega
  have hqm : q % 1024 < m := by omega
  have hst : s = t := by
    rcases lt_trichotomy s t with h1 | h1 | h1
    · have := mul_add_lt_mul h1 hpm
      omega
    · exact h1
    · have := mul_add_lt_mul h1 hqm
      omega
  subst hst
  exact ⟨by omega, rfl⟩

/-- Every assignment of an innovation to each (path, step) is the one some sampler yields. -/
theorem exists_sampler_of_assignment {R : Type} [LinearOrderedField R] (e : Engine R)
    (z : Nat → Nat → R) :
    ∃ smp : Sampler R, ∀ p s, p < e.params_.paths → s < e.params_.steps →
      innovation e smp e.rng_.get_df (drawIndex e.params_.paths e.params_.steps p s) = z p s := by
  classical
  let d : Nat → R := fun n =>
    if h : ∃ ps : Nat × Nat, ps.1 < e.params_.paths ∧ ps.2 < e.params_.steps ∧
        drawIndex e.params_.paths e.params_.steps ps.1 ps.2 = n
    then z (Classical.choose h).1 (Classical.choose h).2 else 0
  refine ⟨⟨d, fun _ => d⟩, ?_⟩
  intro p s hp hs
  have hex : ∃ ps : Nat × Nat, ps.1 < e.params_.paths ∧ ps.2 < e.params_.steps ∧
      drawIndex e.params_.paths e.params_.steps ps.1 ps.2
        = drawIndex e.params_.paths e.params_.steps p s := ⟨(p, s), hp, hs, rfl⟩
  have hd : d (drawIndex e.params_.paths e.params_.steps p s) = z p s := by
    simp only [d, dif_pos hex]
    obtain ⟨h1, h2, h3⟩ := Classical.choose_spec hex
    obtain ⟨e1, e2⟩ := drawIndex_injective h1 hp h2 hs h3
    rw [e1, e2]
  unfold innovation
  split_ifs <;> exact hd

theorem allDraw_fields {R : Type} (d : Nat → R) (m : Nat) (l : AllLocals R) :
    let l1 := forLoop m (fun k (l : AllLocals R) =>
      { l with rands := Function.update l.rands k (d l.rng), rng := l.rng + 1 }) l
    l1.rng = l.rng + m ∧ l1.spots = l.spots ∧ l1.spots_up = l.spots_up ∧
      l1.spots_down = l.spots_down ∧ l1.total_price = l.total_price ∧
      l1.total_up = l.total_up ∧ l1.total_down = l.total_down ∧
      ∀ k, l1.rands k = if k < m then d (l.rng + k) else l.rands k := by
  induction m with
  | zero => simp [forLoop]
  | succ m ih =>
    obtain ⟨h1, h2, h3, h4, h5, h6, h7, h8⟩ := ih
    simp only [forLoop_succ]
    refine ⟨by rw [h1]; omega, h2, h3, h4, h5, h6, h7, ?_⟩
    intro k
    simp only [Function.update_apply, h8, h1]
    split_ifs <;> first | rfl | omega | (subst_vars; rfl)

theorem allUpdate_fields {R : Type} [LinearOrderedField R] (f : R → R) (m : Nat)
    (l : AllLocals R) :
    let l1 := forLoop m (fun k (l : AllLocals R) =>
      let shock := f (l.rands k)
      { l with spots := Function.update l.spots k (l.spots k * shock),
               spots_up := Function.update l.spots_up k (l.spots_up k * shock),
               spots_down := Function.update l.spots_down k (l.spots_down k * shock) }) l
    l1.rng = l.rng ∧ l1.rands = l.rands ∧ l1.total_price = l.total_price ∧
      l1.total_up = l.total_up ∧ l1.total_down = l.total_down ∧
      ∀ k, (l1.spots k = if k < m then l.spots k * f (l.rands k) else l.spots k) ∧
        (l1.spots_up k = if k < m then l.spots_up k * f (l.rands k) else l.spots_up k) ∧
        (l1.spots_down k = if k < m then l.spots_down k * f (l.rands k) else l.spots_down k) := by
  induction m with
  | zero => simp [forLoop]
  | succ m ih =>
    obtain ⟨h1, h2, h3, h4, h5, h6⟩ := ih
    simp only [forLoop_succ]
    refine ⟨h1, h2, h3, h4, h5, ?_⟩
    intro k
    obtain ⟨a1, a2, a3⟩ := h6 k
    obtain ⟨b1, b2, b3⟩ := h6 m
    simp only [Function.update_apply, h2, a1, a2, a3, b1, b2, b3]
    refine ⟨?_, ?_, ?_⟩ <;> split_ifs <;> first | rfl | omega | (subst_vars; rfl)

theorem allStep_fields {R : Type} [LinearOrderedField R] (exp : R → R) (e : Engine R)
    (smp : Sampler R) (drift_step vol_step df : R) (m : Nat) (l : AllLocals R) :
    let l1 := allStep exp e smp drift_step vol_step df m l
    let shock := fun k => exp (drift_step + vol_step * innovation e smp df (l.rng + k))
    l1.rng = l.rng + m ∧ l1.total_price = l.total_price ∧
      l1.total_up = l.total_up ∧ l1.total_down = l.total_down ∧
      ∀ k, (l1.spots k = if k < m then l.spots k * shock k else l.spots k) ∧
        (l1.spots_up k = if k < m then l.spots_up k * shock k else l.spots_up k) ∧
        (l1.spots_down k = if k < m then l.spots_down k * shock k else l.spots_down k) := by
  unfold allStep innovation
  split_ifs with hd
  · obtain ⟨h1, h2, h3, h4, h5, h6⟩ :=
      allUpdate_fields (fun r => exp (drift_step + vol_step * r)) m
        (forLoop m (fun k (l : AllLocals R) =>
          { l with rands := Function.update l.rands k (smp.normal_dist l.rng),
                   rng := l.rng + 1 }) l)
    obtain ⟨d1, d2, d3, d4, d5, d6, d7, d8⟩ := allDraw_fields smp.normal_dist m l
    refine ⟨h1.trans d1, h3.trans d5, h4.trans d6, h5.trans d7, ?_⟩
    intro k
    obtain ⟨a1, a2, a3⟩ := h6 k
    rw [d2, d8] at a1
    rw [d3, d8] at a2
    rw [d4, d8] at a3
    refine ⟨a1.trans ?_, a2.trans ?_, a3.trans ?_⟩ <;> split_ifs <;> rfl
  · obtain ⟨h1, h2, h3, h4, h5, h6⟩ :=
      allUpdate_fields (fun r => exp (drift_step + vol_step * r)) m
        (forLoop m (fun k (l : AllLocals R) =>
          { l with rands := Function.update l.rands k (smp.t_dist df l.rng),
                   rng := l.rng + 1 }) l)
    obtain ⟨d1, d2, d3, d4, d5, d6, d7, d8⟩ := allDraw_fields (smp.t_dist df) m l
    refine ⟨h1.trans d1, h3.trans d5, h4.trans d6, h5.trans d7, ?_⟩
    intro k
    obtain ⟨a1, a2, a3⟩ := h6 k
    rw [d2, d8] at a1
    rw [d3, d8] at a2
    rw [d4, d8] at a3
    refine ⟨a1.trans ?_, a2.trans ?_, a3.trans ?_⟩ <;> split_ifs <;> rfl

theorem allStepLoop_fields {R : Type} [LinearOrderedField R] (exp : R → R) (e : Engine R)
    (smp : Sampler R) (drift_step vol_step df : R) (m n : Nat) (l : AllLocals R) :
    let l1 := forLoop n (fun _ l => allStep exp e smp drift_step vol_step df m l) l
    let M := fun k => ∏ s in Finset.range n,
      exp (drift_step + vol_step * innovation e smp df (l.rng + s * m + k))
    l1.rng = l.rng + n * m ∧ l1.total_price = l.total_price ∧
      l1.total_up = l.total_up ∧ l1.total_down = l.total_down ∧
      ∀ k, (l1.spots k = if k < m then l.spots k * M k else l.spots k) ∧
        (l1.spots_up k = if k < m then l.spots_up k * M k else l.spots_up k) ∧
        (l1.spots_down k = if k < m then l.spots_down k * M k else l.spots_down k) := by
  induction n with
  | zero => simp [forLoop]
  | succ n ih =>
    obtain ⟨h1, h2, h3, h4, h5⟩ := ih
    obtain ⟨g1, g2, g3, g4, g5⟩ := allStep_fields exp e smp drift_step vol_step df m
      (forLoop n (fun _ l => allStep exp e smp drift_step vol_step df m l) l)
    simp only [forLoop_succ]
    refine ⟨by rw [g1, h1]; ring, g2.trans h2, g3.trans h3, g4.trans h4, ?_⟩
    intro k
    obtain ⟨a1, a2, a3⟩ := g5 k
    obtain ⟨b1, b2, b3⟩ := h5 k
    rw [a1, a2, a3, b1, b2, b3, h1]
    refine ⟨?_, ?_, ?_⟩ <;> split_ifs <;> first | rfl | rw [Finset.prod_range_succ, mul_assoc]

theorem allSimulate_fields {R : Type} [LinearOrderedField R] (exp : R → R) (e : Engine R)
    (smp : Sampler R) (drift_step vol_step df S0 S_up S_down : R) (i : Nat) (l : AllLocals R) :
    let m := min BLOCK_SIZE (e.params_.paths - i)
    let l1 := allSimulate exp e smp drift_step vol_step df S0 S_up S_down i l
    let M := fun k => ∏ s in Finset.range e.params_.steps,
      exp (drift_step + vol_step * innovation e smp df (l.rng + s * m + k))
    l1.rng = l.rng + e.params_.steps * m ∧ l1.total_price = l.total_price ∧
      l1.total_up = l.total_up ∧ l1.total_down = l.total_down ∧
      ∀ k, k < m → l1.spots k = S0 * M k ∧ l1.spots_up k = S_up * M k ∧
        l1.spots_down k = S_down * M k := by
  intro m
  obtain ⟨h1, h2, h3, h4, h5⟩ := allStepLoop_fields exp e smp drift_step vol_step df m
    e.params_.steps { l with
      spots := fun k => if k < m then S0 else l.spots k,
      spots_up := fun k => if k < m then S_up else l.spots_up k,
      spots_down := fun k => if k < m then S_down else l.spots_down k }
  simp only [allSimulate]
  refine ⟨h1, h2, h3, h4, ?_⟩
  intro k hk
  obtain ⟨a1, a2, a3⟩ := h5 k
  rw [a1, a2, a3]
  simp only [hk, if_true]
  exact ⟨trivial, trivial, trivial⟩

theorem blockSums_eq {R : Type} [LinearOrderedField R] (g1 g2 g3 : Nat → R) (m : Nat) :
    let b := forLoop m (fun k (b : BlockSums R) =>
      { block_price := b.block_price + g1 k,
        block_up := b.block_up + g2 k,
        block_down := b.block_down + g3 k }) ⟨0, 0, 0⟩
    b.block_price = ∑ k in Finset.range m, g1 k ∧
      b.block_up = ∑ k in Finset.range m, g2 k ∧
      b.block_down = ∑ k in Finset.range m, g3 k := by
  induction m with
  | zero => simp [forLoop]
  | succ m ih =>
    obtain ⟨h1, h2, h3⟩ := ih
    simp only [forLoop_succ, Finset.sum_range_succ, h1, h2, h3]
    exact ⟨trivial, trivial, trivial⟩

theorem allBlock_fields {R : Type} [LinearOrderedField R] (exp : R → R) (e : Engine R)
    (smp : Sampler R) (drift_step vol_step df S0 S_up S_down : R) (i : Nat) (l : AllLocals R) :
    let m := min BLOCK_SIZE (e.params_.paths - i)
    let l1 := allBlock exp e smp drift_step vol_step df S0 S_up S_down i l
    let term := fun (S : R) (k : Nat) => e.payoff_ (S * ∏ s in Finset.range e.params_.steps,
      exp (drift_step + vol_step * innovation e smp df (l.rng + s * m + k)))
    l1.rng = l.rng + e.params_.steps * m ∧
      l1.total_price = l.total_price + ∑ k in Finset.range m, term S0 k ∧
      l1.total_up = l.total_up + ∑ k in Finset.range m, term S_up k ∧
      l1.total_down = l.total_down + ∑ k in Finset.range m, term S_down k := by
  intro m
  obtain ⟨h1, h2, h3, h4, h5⟩ :=
    allSimulate_fields exp e smp drift_step vol_step df S0 S_up S_down i l
  obtain ⟨b1, b2, b3⟩ := blockSums_eq
    (fun k => e.payoff_ ((allSimulate exp e smp drift_step vol_step df S0 S_up S_down i l).spots k))
    (fun k => e.payoff_
      ((allSimulate exp e smp drift_step vol_step df S0 S_up S_down i l).spots_up k))
    (fun k => e.payoff_
      ((allSimulate exp e smp drift_step vol_step df S0 S_up S_down i l).spots_down k)) m
  simp only [allBlock]
  refine ⟨h1, ?_, ?_, ?_⟩
  · rw [h2, b1]
    congr 1
    exact Finset.sum_congr rfl (fun k hk => by rw [(h5 k (Finset.mem_range.mp hk)).1])
  · rw [h3, b2]
    congr 1
    exact Finset.sum_congr rfl (fun k hk => by rw [(h5 k (Finset.mem_range.mp hk)).2.1])
  · rw [h4, b3]
    congr 1
    exact Finset.sum_congr rfl (fun k hk => by rw [(h5 k (Finset.mem_range.mp hk)).2.2])

theorem allLoop_totals {R : Type} [LinearOrderedField R] (exp : R → R) (e : Engine R)
    (smp : Sampler R) (drift_step vol_step df S0 S_up S_down : R) :
    let l := stridedLoop BLOCK_SIZE (by decide) e.params_.paths
      (allBlock exp e smp drift_step vol_step df S0 S_up S_down) 0
      ⟨0, fun _ => 0, fun _ => 0, fun _ => 0, fun _ => 0, 0, 0, 0⟩
    l.total_price = ∑ p in Finset.range e.params_.paths,
        pathPayoff exp e smp drift_step vol_step df S0 p ∧
      l.total_up = ∑ p in Finset.range e.params_.paths,
        pathPayoff exp e smp drift_step vol_step df S_up p ∧
      l.total_down = ∑ p in Finset.range e.params_.paths,
        pathPayoff exp e smp drift_step vol_step df S_down p := by
  obtain ⟨j, hj, -, -, hinv⟩ := stridedLoop_invariant BLOCK_SIZE (by decide) e.params_.paths
    (allBlock exp e smp drift_step vol_step df S0 S_up S_down)
    (fun i l => BLOCK_SIZE ∣ i ∧ l.rng = e.params_.steps * min i e.params_.paths ∧
      (l.total_price = ∑ p in Finset.range (min i e.params_.paths),
        pathPayoff exp e smp drift_step vol_step df S0 p ∧
      l.total_up = ∑ p in Finset.range (min i e.params_.paths),
        pathPayoff exp e smp drift_step vol_step df S_up p ∧
      l.total_down = ∑ p in Finset.range (min i e.params_.paths),
        pathPayoff exp e smp drift_step vol_step df S_down p))
    (by
      rintro i l hi ⟨hdvd, hrng, ht1, ht2, ht3⟩
      obtain ⟨g1, g2, g3, g4⟩ :=
        allBlock_fields exp e smp drift_step vol_step df S0 S_up S_down i l
      have hmin : min (i + BLOCK_SIZE) e.params_.paths
          = min i e.params_.paths + min BLOCK_SIZE (e.params_.paths - i) := by
        unfold BLOCK_SIZE; omega
      have hmin2 : min i e.params_.paths = i := by omega
      have hterm : ∀ (S : R) (k : Nat), k ∈ Finset.range (min BLOCK_SIZE (e.params_.paths - i)) →
          e.payoff_ (S * ∏ s in Finset.range e.params_.steps,
            exp (drift_step + vol_step * innovation e smp df
              (l.rng + s * min BLOCK_SIZE (e.params_.paths - i) + k)))
          = pathPayoff exp e smp drift_step vol_step df S (i + k) := by
        intro S k hk
        unfold pathPayoff
        congr 2
        apply Finset.prod_congr rfl
        intro s _
        rw [drawIndex_block _ _ _ _ s hdvd (Finset.mem_range.mp hk), hrng, hmin2]
      refine ⟨Dvd.dvd.add hdvd (dvd_refl _), ?_, ?_, ?_, ?_⟩
      · rw [g1, hrng, hmin, mul_add]
      · rw [g2, ht1, hmin, Finset.sum_range_add, hmin2]
        congr 1
        exact Finset.sum_congr rfl (hterm S0)
      · rw [g3, ht2, hmin, Finset.sum_range_add, hmin2]
        congr 1
        exact Finset.sum_congr rfl (hterm S_up)
      · rw [g4, ht3, hmin, Finset.sum_range_add, hmin2]
        congr 1
        exact Finset.sum_congr rfl (hterm S_down))
    e.params_.paths 0 ⟨0, fun _ => 0, fun _ => 0, fun _ => 0, fun _ => 0, 0, 0, 0⟩ (by omega)
    ⟨dvd_zero _, by simp, by simp, by simp, by simp⟩
  obtain ⟨h1, h2, h3⟩ := hinv
  rw [min_eq_right hj] at h1 h2 h3
  exact ⟨h1, h2, h3⟩

/-- C2. In `calculateAll`, for every path and every step the base, up and down
trajectories are multiplied by the same shock `exp(driftStep + volStep*z)` built from
one innovation `z`: what `calculateAll` returns is computed from the totals of the
loop over the blocks `allBlock` started at `spot`, `spot + bump` and `spot - bump`
with `bump = 0.01*spot`; these totals are the sums over the paths `p` of the payoffs
of `spot*M p`, `(spot+bump)*M p` and `(spot-bump)*M p` for one common factor `M p`,
the product of the shocks of the path, so the up value is 1.01 times and the down
value 0.99 times the base value; in the block that starts at `i`, the buffers of path
`k` hold these three values after the time loop, and every step multiplies the three
buffers by the same shock. -/
theorem calculateAll_common_shock {R : Type} [LinearOrderedField R] (exp sqrt : R → R)
    (e : Engine R) (smp : Sampler R) (base_seed : Nat) (time_ms : R) (i : Nat)
    (l : AllLocals R) (k : Nat) (hk : k < min BLOCK_SIZE (e.params_.paths - i)) :
    let bump := 0.01 * e.params_.spot
    let dt := e.params_.expiry / e.params_.steps
    let drift_step := (e.params_.rate - 0.5 * e.params_.volatility * e.params_.volatility) * dt
    let vol_step := e.params_.volatility * sqrt dt
    let df := e.rng_.get_df
    let discount := exp (-e.params_.rate * e.params_.expiry)
    let m := min BLOCK_SIZE (e.params_.paths - i)
    let r := calculateAll exp sqrt e smp base_seed time_ms
    let region := stridedLoop BLOCK_SIZE (by decide) e.params_.paths
      (allBlock exp e smp drift_step vol_step df e.params_.spot (e.params_.spot + bump)
        (e.params_.spot - bump)) 0
      ⟨0, fun _ => 0, fun _ => 0, fun _ => 0, fun _ => 0, 0, 0, 0⟩
    let M := fun p => ∏ s in Finset.range e.params_.steps,
      exp (drift_step + vol_step
        * innovation e smp df (drawIndex e.params_.paths e.params_.steps p s))
    (r.price = region.total_price / e.params_.paths * discount ∧
      r.delta = (region.total_up / e.params_.paths * discount
        - region.total_down / e.params_.paths * discount) / (2 * bump) ∧
      r.gamma = (region.total_up / e.params_.paths * discount
        - 2 * (region.total_price / e.params_.paths * discount)
        + region.total_down / e.params_.paths * discount) / (bump * bump)) ∧
    (region.total_price = ∑ p in Finset.range e.params_.paths,
        e.payoff_ (e.params_.spot * M p) ∧
      region.total_up = ∑ p in Finset.range e.params_.paths,
        e.payoff_ ((e.params_.spot + bump) * M p) ∧
      region.total_down = ∑ p in Finset.range e.params_.paths,
        e.payoff_ ((e.params_.spot - bump) * M p)) ∧
    (∀ p, (e.params_.spot + bump) * M p = 1.01 * (e.params_.spot * M p) ∧
      (e.params_.spot - bump) * M p = 0.99 * (e.params_.spot * M p)) ∧
    (∀ l0 : AllLocals R,
      let shock := exp (drift_step + vol_step * innovation e smp df (l0.rng + k))
      let l1 := allStep exp e smp drift_step vol_step df m l0
      l1.spots k = l0.spots k * shock ∧ l1.spots_up k = l0.spots_up k * shock ∧
        l1.spots_down k = l0.spots_down k * shock) ∧
    (let Mk := ∏ s in Finset.range e.params_.steps,
        exp (drift_step + vol_step * innovation e smp df (l.rng + s * m + k))
     let l1 := allBlock exp e smp drift_step vol_step df e.params_.spot
        (e.params_.spot + bump) (e.params_.spot - bump) i l
     l1.spots k = e.params_.spot * Mk ∧ l1.spots_up k = (e.params_.spot + bump) * Mk ∧
       l1.spots_down k = (e.params_.spot - bump) * Mk ∧
       l1.spots_up k = 1.01 * l1.spots k ∧ l1.spots_down k = 0.99 * l1.spots k) := by
  intro bump dt drift_step vol_step df discount m r region M
  have h101 : ∀ x : R, (e.params_.spot + bump) * x = 1.01 * (e.params_.spot * x) := by
    intro x
    simp only [bump]
    have h : (1.01 : R) = 1 + 0.01 := by norm_num
    rw [h]; ring
  have h099 : ∀ x : R, (e.params_.spot - bump) * x = 0.99 * (e.params_.spot * x) := by
    intro x
    simp only [bump]
    have h : (0.99 : R) = 1 - 0.01 := by norm_num
    rw [h]; ring
  refine ⟨⟨rfl, rfl, rfl⟩, ?_, fun p => ⟨h101 _, h099 _⟩, ?_, ?_⟩
  · exact allLoop_totals exp e smp drift_step vol_step df e.params_.spot
      (e.params_.spot + bump) (e.params_.spot - bump)
  · intro l0
    obtain ⟨-, -, -, -, h⟩ := allStep_fields exp e smp drift_step vol_step df m l0
    obtain ⟨a1, a2, a3⟩ := h k
    simp only [hk, if_true] at a1 a2 a3
    exact ⟨a1, a2, a3⟩
  · obtain ⟨-, -, -, -, h⟩ := allSimulate_fields exp e smp drift_step vol_step df e.params_.spot
      (e.params_.spot + bump) (e.params_.spot - bump) i l
    obtain ⟨a1, a2, a3⟩ := h k hk
    have b1 : (allBlock exp e smp drift_step vol_step df e.params_.spot
        (e.params_.spot + bump) (e.params_.spot - bump) i l).spots k
        = e.params_.spot * ∏ s in Finset.range e.params_.steps,
          exp (drift_step + vol_step * innovation e smp df (l.rng + s * m + k)) := a1
    have b2 : (allBlock exp e smp drift_step vol_step df e.params_.spot
        (e.params_.spot + bump) (e.params_.spot - bump) i l).spots_up k
        = (e.params_.spot + bump) * ∏ s in Finset.range e.params_.steps,
          exp (drift_step + vol_step * innovation e smp df (l.rng + s * m + k)) := a2
    have b3 : (allBlock exp e smp drift_step vol_step df e.params_.spot
        (e.params_.spot + bump) (e.params_.spot - bump) i l).spots_down k
        = (e.params_.spot - bump) * ∏ s in Finset.range e.params_.steps,
          exp (drift_step + vol_step * innovation e smp df (l.rng + s * m + k)) := a3
    refine ⟨b1, b2, b3, ?_, ?_⟩
    · rw [b1, b2]; exact h101 _
    · rw [b1, b3]; exact h099 _

/-- Witness of C2: path 1 of the first block of `exampleEngine`. -/
theorem calculateAll_common_shock_witness :
    (allBlock (fun x : ℚ => 1 + x) exampleEngine (zeroSampler ℚ)
        ((exampleEngine.params_.rate
            - 0.5 * exampleEngine.params_.volatility * exampleEngine.params_.volatility)
          * (exampleEngine.params_.expiry / exampleEngine.params_.steps))
        (exampleEngine.params_.volatility
          * id (exampleEngine.params_.expiry / exampleEngine.params_.steps))
        exampleEngine.rng_.get_df exampleEngine.params_.spot
        (exampleEngine.params_.spot + 0.01 * exampleEngine.params_.spot)
        (exampleEngine.params_.spot - 0.01 * exampleEngine.params_.spot) 0 exampleLocals).spots_up 1
      = 1.01 * (allBlock (fun x : ℚ => 1 + x) exampleEngine (zeroSampler ℚ)
        ((exampleEngine.params_.rate
            - 0.5 * exampleEngine.params_.volatility * exampleEngine.params_.volatility)
          * (exampleEngine.params_.expiry / exampleEngine.params_.steps))
        (exampleEngine.params_.volatility
          * id (exampleEngine.params_.expiry / exampleEngine.params_.steps))
        exampleEngine.rng_.get_df exampleEngine.params_.spot
        (exampleEngine.params_.spot + 0.01 * exampleEngine.params_.spot)
        (exampleEngine.params_.spot - 0.01 * exampleEngine.params_.spot) 0 exampleLocals).spots 1 :=
  (calculateAll_common_shock (fun x : ℚ => 1 + x) id exampleEngine (zeroSampler ℚ) 7 0 0
    exampleLocals 1 (by decide)).2.2.2.2.2.2.2.1

/-- C19. For the same parameters, payoff and innovations, the price field of the
result of `calculateAll` equals the value returned by `calculatePrice`: adding the up
and down scenarios does not change the base price. -/
theorem calculateAll_price_eq_calculatePrice {R : Type} [LinearOrderedField R]
    (exp sqrt : R → R) (e : Engine R) (smp : Sampler R) (base_seed : Nat) (time_ms : R) :
    (calculateAll exp sqrt e smp base_seed time_ms).price = calculatePrice exp sqrt e smp := by
  unfold calculateAll calculatePrice
  simp only []
  rw [(allLoop_totals exp e smp _ _ _ _ _ _).1, priceLoop_total]

/-- The call payoff is convex at a midpoint. -/
theorem PayoffCall_midpoint {R : Type} [LinearOrderedField R] (K u d m : R)
    (h : u + d = 2 * m) : 2 * PayoffCall K m ≤ PayoffCall K u + PayoffCall K d := by
  unfold PayoffCall
  rcases le_total (u - K) 0 with h1 | h1 <;> rcases le_total (d - K) 0 with h2 | h2 <;>
    rcases le_total (m - K) 0 with h3 | h3 <;>
    simp only [max_eq_left, max_eq_right, h1, h2, h3] <;> linarith

/-- The put payoff is convex at a midpoint. -/
theorem PayoffPut_midpoint {R : Type} [LinearOrderedField R] (K u d m : R)
    (h : u + d = 2 * m) : 2 * PayoffPut K m ≤ PayoffPut K u + PayoffPut K d := by
  unfold PayoffPut
  rcases le_total (K - u) 0 with h1 | h1 <;> rcases le_total (K - d) 0 with h2 | h2 <;>
    rcases le_total (K - m) 0 with h3 | h3 <;>
    simp only [max_eq_left, max_eq_right, h1, h2, h3] <;> linarith

/-- The gamma of `calculateAll` is not negative when the payoff is convex at the
midpoints and the discount factor is not negative. -/
theorem calculateAll_convex_payoff {R : Type} [LinearOrderedField R] (exp sqrt : R → R)
    (e : Engine R) (smp : Sampler R) (base_seed : Nat) (time_ms : R)
    (hconv : ∀ u d m : R, u + d = 2 * m → 2 * e.payoff_ m ≤ e.payoff_ u + e.payoff_ d)
    (hdisc : 0 ≤ exp (-e.params_.rate * e.params_.expiry)) :
    0 ≤ (calculateAll exp sqrt e smp base_seed time_ms).gamma := by
  unfold calculateAll
  simp only []
  obtain ⟨h1, h2, h3⟩ := allLoop_totals exp e smp
    ((e.params_.rate - 0.5 * e.params_.volatility * e.params_.volatility)
      * (e.params_.expiry / e.params_.steps))
    (e.params_.volatility * sqrt (e.params_.expiry / e.params_.steps))
    e.rng_.get_df e.params_.spot (e.params_.spot + 0.01 * e.params_.spot)
    (e.params_.spot - 0.01 * e.params_.spot)
  rw [h1, h2, h3]
  apply div_nonneg _ (mul_self_nonneg _)
  have hsum : 0 ≤ (∑ p in Finset.range e.params_.paths, pathPayoff exp e smp
        ((e.params_.rate - 0.5 * e.params_.volatility * e.params_.volatility)
          * (e.params_.expiry / e.params_.steps))
        (e.params_.volatility * sqrt (e.params_.expiry / e.params_.steps))
        e.rng_.get_df (e.params_.spot + 0.01 * e.params_.spot) p)
      - 2 * (∑ p in Finset.range e.params_.paths, pathPayoff exp e smp
        ((e.params_.rate - 0.5 * e.params_.volatility * e.params_.volatility)
          * (e.params_.expiry / e.params_.steps))
        (e.params_.volatility * sqrt (e.params_.expiry / e.params_.steps))
        e.rng_.get_df e.params_.spot p)
      + (∑ p in Finset.range e.params_.paths, pathPayoff exp e smp
        ((e.params_.rate - 0.5 * e.params_.volatility * e.params_.volatility)
          * (e.params_.expiry / e.params_.steps))
        (e.params_.volatility * sqrt (e.params_.expiry / e.params_.steps))
        e.rng_.get_df (e.params_.spot - 0.01 * e.params_.spot) p) := by
    rw [Finset.mul_sum, ← Finset.sum_sub_distrib, ← Finset.sum_add_distrib]
    apply Finset.sum_nonneg
    intro p _
    unfold pathPayoff
    have := hconv
      ((e.params_.spot + 0.01 * e.params_.spot) * ∏ s in Finset.range e.params_.steps,
        exp ((e.params_.rate - 0.5 * e.params_.volatility * e.params_.volatility)
            * (e.params_.expiry / e.params_.steps)
          + e.params_.volatility * sqrt (e.params_.expiry / e.params_.steps)
            * innovation e smp e.rng_.get_df
                (drawIndex e.params_.paths e.params_.steps p s)))
      ((e.params_.spot - 0.01 * e.params_.spot) * ∏ s in Finset.range e.params_.steps,
        exp ((e.params_.rate - 0.5 * e.params_.volatility * e.params_.volatility)
            * (e.params_.expiry / e.params_.steps)
          + e.params_.volatility * sqrt (e.params_.expiry / e.params_.steps)
            * innovation e smp e.rng_.get_df
                (drawIndex e.params_.paths e.params_.steps p s)))
      (e.params_.spot * ∏ s in Finset.range e.params_.steps,
        exp ((e.params_.rate - 0.5 * e.params_.volatility * e.params_.volatility)
            * (e.params_.expiry / e.params_.steps)
          + e.params_.volatility * sqrt (e.params_.expiry / e.params_.steps)
            * innovation e smp e.rng_.get_df
                (drawIndex e.params_.paths e.params_.steps p s)))
      (by ring)
    linarith
  have hn : (0 : R) ≤ (e.params_.paths : R) := Nat.cast_nonneg _
  have key : ∀ a b c n d : R, 0 ≤ a - 2 * b + c → 0 ≤ n → 0 ≤ d →
      0 ≤ a / n * d - 2 * (b / n * d) + c / n * d := by
    intro a b c n d h hn hd
    have e1 : a / n * d - 2 * (b / n * d) + c / n * d = (a - 2 * b + c) / n * d := by ring
    rw [e1]
    exact mul_nonneg (div_nonneg h hn) hd
  exact key _ _ _ _ _ hsum hn hdisc

end Engine

/-- A map that commutes with the body of a loop commutes with the loop. -/
theorem forLoop_comm {σ τ : Type} (φ : σ → τ) (n : Nat) (body : Nat → σ → σ)
    (body2 : Nat → τ → τ) (h : ∀ i st, i < n → φ (body i st) = body2 i (φ st)) (st : σ) :
    φ (forLoop n body st) = forLoop n body2 (φ st) := by
  induction n with
  | zero => rfl
  | succ n ih =>
    rw [forLoop_succ, forLoop_succ, h n _ (Nat.lt_succ_self n),
      ih (fun i st hi => h i st (Nat.lt_succ_of_lt hi))]

/-- A map that commutes with the body of a strided loop commutes with the loop. -/
theorem stridedLoop_comm {σ τ : Type} (φ : σ → τ) (stride : Nat) (hs : 0 < stride) (n : Nat)
    (body : Nat → σ → σ) (body2 : Nat → τ → τ)
    (h : ∀ i st, i < n → φ (body i st) = body2 i (φ st)) :
    ∀ (d i : Nat) (st : σ), n - i ≤ d →
      φ (stridedLoop stride hs n body i st) = stridedLoop stride hs n body2 i (φ st) := by
  intro d
  induction d with
  | zero =>
    intro i st hd
    rw [stridedLoop, if_neg (by omega), stridedLoop, if_neg (by omega)]
  | succ d ih =>
    intro i st hd
    rw [stridedLoop, stridedLoop.eq_1 stride hs n body2]
    split_ifs with hi
    · rw [ih (i + stride) (body i st) (by omega), h i st hi]
    · rfl

namespace Double

theorem fin_update {R : Type} (f : Nat → R) (k : Nat) (v : R) :
    (fun j => fin (Function.update f k v j)) = Function.update (fun j => fin (f j)) k (fin v) := by
  funext j
  by_cases h : j = k
  · subst h; simp
  · simp [Function.update_noteq h]

variable {R : Type} [LinearOrderedField R]

theorem fin_add (x y : R) : (fin x + fin y : Double R) = fin (x + y) := rfl

theorem fin_neg (x : R) : (-fin x : Double R) = fin (-x) := rfl

theorem fin_sub (x y : R) : (fin x - fin y : Double R) = fin (x - y) := by
  show add (fin x) (neg (fin y)) = fin (x - y)
  rw [sub_eq_add_neg]
  rfl

theorem fin_mul (x y : R) : (fin x * fin y : Double R) = fin (x * y) := rfl

theorem fin_div (x : R) {y : R} (hy : y ≠ 0) : (fin x / fin y : Double R) = fin (x / y) := by
  show (if y = 0 then infMul true x else fin (x / y)) = fin (x / y)
  rw [if_neg hy]

theorem natCast_eq (n : Nat) : ((n : Nat) : Double R) = fin (n : R) := rfl

theorem zero_eq : (0 : Double R) = fin 0 := by
  show fin ((0 : Nat) : R) = fin 0
  rw [Nat.cast_zero]

theorem two_eq : (2 : Double R) = fin 2 := by
  show fin ((2 : Nat) : R) = fin 2
  rw [Nat.cast_ofNat]

theorem ofScientific_eq (m : Nat) (s : Bool) (e : Nat) :
    (OfScientific.ofScientific m s e : Double R) = fin (OfScientific.ofScientific m s e) := rfl

theorem exp_fin (f : R → R) (x : R) : Double.exp f (fin x) = fin (f x) := rfl

theorem sqrt_fin (f : R → R) {x : R} (hx : 0 ≤ x) : Double.sqrt f (fin x) = fin (f x) := by
  show (if x < 0 then nan else fin (f x)) = fin (f x)
  rw [if_neg (not_lt.mpr hx)]

theorem sqrt_neg (f : R → R) {x : R} (hx : x < 0) : Double.sqrt f (fin x) = nan := by
  show (if x < 0 then nan else fin (f x)) = nan
  rw [if_pos hx]

theorem max_fin (x y : R) : Double.max (fin x) (fin y) = fin (Max.max x y) := by
  unfold Double.max lt
  by_cases h : x < y
  · simp [h, max_eq_right (le_of_lt h)]
  · simp [h, max_eq_left (not_lt.mp h)]

theorem nan_add (a : Double R) : nan + a = nan := by
  show add nan a = nan
  cases a <;> rfl

theorem add_nan (a : Double R) : a + nan = nan := by
  show add a nan = nan
  cases a <;> rfl

theorem nan_mul (a : Double R) : nan * a = nan := by
  show mul nan a = nan
  cases a <;> rfl

theorem mul_nan (a : Double R) : a * nan = nan := by
  show mul a nan = nan
  cases a <;> rfl

theorem nan_sub (a : Double R) : nan - a = nan := by
  show add nan (neg a) = nan
  cases a <;> rfl

theorem sub_nan (a : Double R) : a - nan = nan := by
  show add a (neg nan) = nan
  cases a <;> rfl

theorem nan_div (a : Double R) : nan / a = nan := by
  show div nan a = nan
  cases a <;> rfl

theorem div_nan (a : Double R) : a / nan = nan := by
  show div a nan = nan
  cases a <;> rfl

theorem exp_nan (f : R → R) : Double.exp f (nan : Double R) = nan := rfl

theorem max_nan_left (b : Double R) : Double.max nan b = nan := by
  unfold Double.max lt
  cases b <;> rfl

theorem le_nan (a : Double R) : le a nan = false := by
  cases a <;> rfl

end Double

namespace IEEE

open Double

variable {R : Type} [LinearOrderedField R]

theorem allStep_of (exp : R → R) (e : Engine R) (pay : Double R → Double R) (smp : Sampler R)
    (d v df : R) (m : Nat) (l : Engine.AllLocals R) :
    allStep exp (ofEngine e pay) (ofSampler smp) (fin d) (fin v) (fin df) m (ofAllLocals l)
      = ofAllLocals (Engine.allStep exp e smp d v df m l) := by
  unfold allStep Engine.allStep
  simp only []
  refine Eq.symm ((forLoop_comm ofAllLocals m _
    (fun k l =>
      let shock := Double.exp exp (fin d + fin v * l.rands k)
      { l with spots := Function.update l.spots k (l.spots k * shock),
               spots_up := Function.update l.spots_up k (l.spots_up k * shock),
               spots_down := Function.update l.spots_down k (l.spots_down k * shock) }) ?_ _).trans ?_)
  · intro k l _
    simp only [ofAllLocals, fin_update, fin_mul, fin_add, exp_fin]
  · congr 1
    show ofAllLocals (if e.params_.distType = DistributionType.Normal then _ else _)
      = (if e.params_.distType = DistributionType.Normal then _ else _)
    split_ifs with h
    · refine (forLoop_comm ofAllLocals m _
        (fun k l => { l with rands := Function.update l.rands k ((ofSampler smp).normal_dist l.rng),
                             rng := l.rng + 1 }) ?_ _)
      intro k l _
      simp only [ofAllLocals, fin_update, ofSampler]
    · refine (forLoop_comm ofAllLocals m _
        (fun k l => { l with rands := Function.update l.rands k ((ofSampler smp).t_dist (fin df) l.rng),
                             rng := l.rng + 1 }) ?_ _)
      intro k l _
      simp only [ofAllLocals, fin_update, ofSampler]

theorem allSimulate_of (exp : R → R) (e : Engine R) (pay : Double R → Double R)
    (smp : Sampler R) (d v df S0 S_up S_down : R) (i : Nat) (l : Engine.AllLocals R) :
    allSimulate exp (ofEngine e pay) (ofSampler smp) (fin d) (fin v) (fin df) (fin S0)
        (fin S_up) (fin S_down) i (ofAllLocals l)
      = ofAllLocals (Engine.allSimulate exp e smp d v df S0 S_up S_down i l) := by
  unfold allSimulate Engine.allSimulate
  simp only []
  refine Eq.symm ((forLoop_comm ofAllLocals _ _
    (fun _ l => allStep exp (ofEngine e pay) (ofSampler smp) (fin d) (fin v) (fin df)
      (min Engine.BLOCK_SIZE (e.params_.paths - i)) l) ?_ _).trans ?_)
  · intro k l _
    exact (allStep_of exp e pay smp d v df _ l).symm
  · congr 1
    simp only [ofAllLocals, ofEngine, IEEE.new, ofParams, apply_ite fin]

theorem allBlock_of (exp : R → R) (e : Engine R) (pay : Double R → Double R)
    (hpay : ∀ x, pay (fin x) = fin (e.payoff_ x))
    (smp : Sampler R) (d v df S0 S_up S_down : R) (i : Nat) (l : Engine.AllLocals R) :
    allBlock exp (ofEngine e pay) (ofSampler smp) (fin d) (fin v) (fin df) (fin S0)
        (fin S_up) (fin S_down) i (ofAllLocals l)
      = ofAllLocals (Engine.allBlock exp e smp d v df S0 S_up S_down i l) := by
  unfold allBlock Engine.allBlock
  simp only []
  rw [allSimulate_of]
  have hsum : forLoop (min Engine.BLOCK_SIZE ((ofEngine e pay).params_.paths - i))
      (fun k (b : Engine.BlockSums (Double R)) =>
        { block_price := b.block_price + (ofEngine e pay).payoff_
            ((ofAllLocals (Engine.allSimulate exp e smp d v df S0 S_up S_down i l)).spots k),
          block_up := b.block_up + (ofEngine e pay).payoff_
            ((ofAllLocals (Engine.allSimulate exp e smp d v df S0 S_up S_down i l)).spots_up k),
          block_down := b.block_down + (ofEngine e pay).payoff_
            ((ofAllLocals (Engine.allSimulate exp e smp d v df S0 S_up S_down i l)).spots_down k) })
        ⟨0, 0, 0⟩
      = ofBlockSums (forLoop (min Engine.BLOCK_SIZE (e.params_.paths - i))
        (fun k (b : Engine.BlockSums R) =>
          { block_price := b.block_price
              + e.payoff_ ((Engine.allSimulate exp e smp d v df S0 S_up S_down i l).spots k),
            block_up := b.block_up
              + e.payoff_ ((Engine.allSimulate exp e smp d v df S0 S_up S_down i l).spots_up k),
            block_down := b.block_down
              + e.payoff_ ((Engine.allSimulate exp e smp d v df S0 S_up S_down i l).spots_down k) })
        ⟨0, 0, 0⟩) := by
    refine Eq.symm ((forLoop_comm ofBlockSums _ _
      (fun k (b : Engine.BlockSums (Double R)) =>
        { block_price := b.block_price + (ofEngine e pay).payoff_
            ((ofAllLocals (Engine.allSimulate exp e smp d v df S0 S_up S_down i l)).spots k),
          block_up := b.block_up + (ofEngine e pay).payoff_
            ((ofAllLocals (Engine.allSimulate exp e smp d v df S0 S_up S_down i l)).spots_up k),
          block_down := b.block_down + (ofEngine e pay).payoff_
            ((ofAllLocals (Engine.allSimulate exp e smp d v df S0 S_up S_down i l)).spots_down k) })
      ?_ _).trans ?_)
    · intro k b _
      simp only [ofBlockSums, ofAllLocals, ofEngine, IEEE.new, hpay, fin_add]
    · simp only [ofBlockSums, zero_eq]
      rfl
  rw [hsum]
  simp only [ofAllLocals, ofBlockSums, fin_add]

theorem calculateAll_of (exp sqrt : R → R) (e : Engine R) (pay : Double R → Double R)
    (hpay : ∀ x, pay (fin x) = fin (e.payoff_ x)) (smp : Sampler R) (base_seed : Nat)
    (time_ms : R)
    (hspot : e.params_.spot ≠ 0) (hexpiry : 0 ≤ e.params_.expiry) (hpaths : 1 ≤ e.params_.paths)
    (hsteps : 1 ≤ e.params_.steps) :
    calculateAll exp sqrt (ofEngine e pay) (ofSampler smp) base_seed (fin time_ms)
      = ofResult (Engine.calculateAll exp sqrt e smp base_seed time_ms) := by
  have hpathsR : (e.params_.paths : R) ≠ 0 := by
    have : 0 < e.params_.paths := hpaths
    exact_mod_cast this.ne'
  have hstepsR : (e.params_.steps : R) ≠ 0 := by
    have : 0 < e.params_.steps := hsteps
    exact_mod_cast this.ne'
  have hdt : 0 ≤ e.params_.expiry / (e.params_.steps : R) :=
    div_nonneg hexpiry (Nat.cast_nonneg _)
  have hbump : (0.01 : R) * e.params_.spot ≠ 0 := mul_ne_zero (by norm_num) hspot
  have hbump2 : (2 : R) * (0.01 * e.params_.spot) ≠ 0 := mul_ne_zero (by norm_num) hbump
  have hbumpsq : (0.01 : R) * e.params_.spot * (0.01 * e.params_.spot) ≠ 0 :=
    mul_ne_zero hbump hbump
  unfold calculateAll Engine.calculateAll
  simp only [ofEngine, IEEE.new, ofParams, ofRandomGen, RandomGen.get_df, natCast_eq, fin_div _ hstepsR,
    sqrt_fin sqrt hdt, ofScientific_eq, fin_mul, fin_sub, fin_add, fin_neg, exp_fin]
  have hloop := stridedLoop_comm ofAllLocals Engine.BLOCK_SIZE (by decide) e.params_.paths
    (Engine.allBlock exp e smp
      ((e.params_.rate - 0.5 * e.params_.volatility * e.params_.volatility)
        * (e.params_.expiry / e.params_.steps))
      (e.params_.volatility * sqrt (e.params_.expiry / e.params_.steps)) e.rng_.df_
      e.params_.spot (e.params_.spot + 0.01 * e.params_.spot)
      (e.params_.spot - 0.01 * e.params_.spot))
    (allBlock exp (ofEngine e pay) (ofSampler smp)
      (fin ((e.params_.rate - 0.5 * e.params_.volatility * e.params_.volatility)
        * (e.params_.expiry / e.params_.steps)))
      (fin (e.params_.volatility * sqrt (e.params_.expiry / e.params_.steps)))
      (fin e.rng_.df_) (fin e.params_.spot) (fin (e.params_.spot + 0.01 * e.params_.spot))
      (fin (e.params_.spot - 0.01 * e.params_.spot)))
    (fun i st _ => (allBlock_of exp e pay hpay smp _ _ _ _ _ _ i st).symm)
    e.params_.paths 0 ⟨0, fun _ => 0, fun _ => 0, fun _ => 0, fun _ => 0, 0, 0, 0⟩ (by omega)
  have hinit : (ofAllLocals ⟨0, fun _ => 0, fun _ => 0, fun _ => 0, fun _ => 0, 0, 0, 0⟩ :
      Engine.AllLocals (Double R))
      = ⟨0, fun _ => 0, fun _ => 0, fun _ => 0, fun _ => 0, 0, 0, 0⟩ := by
    simp only [ofAllLocals, zero_eq]
  rw [hinit] at hloop
  simp only [ofEngine, IEEE.new, ofParams, ofRandomGen] at hloop
  rw [← hloop]
  simp only [ofAllLocals, ofResult, fin_div _ hpathsR, fin_mul, fin_sub, fin_add, two_eq,
    fin_div _ hbump2, fin_div _ hbumpsq]

/-- On numbers the call payoff on doubles is the call payoff on `R`. -/
theorem PayoffCall_fin (K x : R) :
    PayoffCall (fin K) (fin x) = fin (QuantPricer.PayoffCall K x) := by
  unfold PayoffCall QuantPricer.PayoffCall
  rw [fin_sub, zero_eq, max_fin]

/-- On numbers the put payoff on doubles is the put payoff on `R`. -/
theorem PayoffPut_fin (K x : R) :
    PayoffPut (fin K) (fin x) = fin (QuantPricer.PayoffPut K x) := by
  unfold PayoffPut QuantPricer.PayoffPut
  rw [fin_sub, zero_eq, max_fin]

/-- The function `std::max(a, 0.0)` on a double that is not a NaN: the larger of the
two. -/
theorem max_zero_of_ne_nan (a : Double R) (h : a ≠ nan) :
    le 0 (Double.max a 0) = true ∧ le a (Double.max a 0) = true ∧
      (Double.max a 0 = 0 ∨ Double.max a 0 = a) := by
  rw [zero_eq]
  cases a with
  | fin d =>
    rw [max_fin]
    refine ⟨?_, ?_, ?_⟩
    · show decide ((0 : R) ≤ Max.max d 0) = true
      exact decide_eq_true (le_max_right _ _)
    · show decide (d ≤ Max.max d 0) = true
      exact decide_eq_true (le_max_left _ _)
    · rcases le_total d 0 with h0 | h0
      · exact Or.inl (by rw [max_eq_right h0])
      · exact Or.inr (by rw [max_eq_left h0])
  | posInf => exact ⟨rfl, rfl, Or.inr rfl⟩
  | negInf => exact ⟨by show decide ((0 : R) ≤ 0) = true; exact decide_eq_true le_rfl, rfl, Or.inl rfl⟩
  | nan => exact absurd rfl h

theorem sub_ne_nan_symm {a b : Double R} (h : a - b ≠ nan) : b - a ≠ nan := by
  revert h
  cases a <;> cases b <;> intro h <;>
    first
    | exact absurd rfl h
    | (intro h2; cases h2)

/-- C13 fails as stated: on a NaN spot `PayoffCall` returns `std::max(NaN - 100, 0.0)`,
which is the NaN (the comparison `NaN < 0.0` is false, so `std::max` returns its first
argument), and `0 <= NaN` is false; the same for `PayoffPut`. -/
theorem payoff_of_nan_not_nonneg :
    PayoffCall (fin 100) (nan : Double ℚ) = nan ∧
    le 0 (PayoffCall (fin 100) (nan : Double ℚ)) = false ∧
    PayoffPut (fin 100) (nan : Double ℚ) = nan ∧
    le 0 (PayoffPut (fin 100) (nan : Double ℚ)) = false := by
  have h1 : PayoffCall (fin 100) (nan : Double ℚ) = nan := by
    unfold PayoffCall
    rw [nan_sub, max_nan_left]
  have h2 : PayoffPut (fin 100) (nan : Double ℚ) = nan := by
    unfold PayoffPut
    rw [sub_nan, max_nan_left]
  rw [h1, h2]
  exact ⟨rfl, le_nan _, rfl, le_nan _⟩

/-- C13, amended. For every strike and every spot whose difference is not a NaN
(neither is a NaN and they are not the same infinity), `PayoffCall` returns
`max(spot - strike, 0)` and `PayoffPut` returns `max(strike - spot, 0)`, the larger of
the difference and 0, and both results are `>= 0`; on numbers they are the maxima
computed in `R`. -/
theorem payoff_eq_max_and_nonneg (strike spot : Double R) (h : spot - strike ≠ nan) :
    (le 0 (PayoffCall strike spot) = true ∧
      le (spot - strike) (PayoffCall strike spot) = true ∧
      (PayoffCall strike spot = 0 ∨ PayoffCall strike spot = spot - strike)) ∧
    (le 0 (PayoffPut strike spot) = true ∧
      le (strike - spot) (PayoffPut strike spot) = true ∧
      (PayoffPut strike spot = 0 ∨ PayoffPut strike spot = strike - spot)) ∧
    (∀ K x : R, PayoffCall (fin K) (fin x) = fin (Max.max (x - K) 0) ∧
      PayoffPut (fin K) (fin x) = fin (Max.max (K - x) 0)) :=
  ⟨max_zero_of_ne_nan _ h, max_zero_of_ne_nan _ (sub_ne_nan_symm h),
    fun K x => ⟨PayoffCall_fin K x, PayoffPut_fin K x⟩⟩

/-- Witness of C13: a strike of 100 and a spot of 120. -/
theorem payoff_eq_max_and_nonneg_witness :
    le 0 (PayoffCall (fin 100) (fin 120 : Double ℚ)) = true ∧
    PayoffCall (fin 100) (fin 120 : Double ℚ) = fin (Max.max (120 - 100) 0) :=
  have h := payoff_eq_max_and_nonneg (fin 100) (fin 120 : Double ℚ)
    (by rw [fin_sub]; exact fun h => Double.noConfusion h)
  ⟨h.1.1, (h.2.2 100 120).1⟩

/-- One path of one step whose volatility step is a NaN: the three totals of
`calculateAll` are NaN when the payoff of a NaN is a NaN. -/
theorem allLoop_nan (exp : R → R) (e : Engine (Double R)) (smp : Sampler (Double R))
    (d df S0 S_up S_down : Double R) (hpaths : e.params_.paths = 1)
    (hsteps : e.params_.steps = 1) (hpay : e.payoff_ nan = nan) :
    let l := stridedLoop Engine.BLOCK_SIZE (by decide) e.params_.paths
      (allBlock exp e smp d nan df S0 S_up S_down) 0
      ⟨0, fun _ => 0, fun _ => 0, fun _ => 0, fun _ => 0, 0, 0, 0⟩
    l.total_price = nan ∧ l.total_up = nan ∧ l.total_down = nan := by
  intro l
  have hl : l = allBlock exp e smp d nan df S0 S_up S_down 0
      ⟨0, fun _ => 0, fun _ => 0, fun _ => 0, fun _ => 0, 0, 0, 0⟩ := by
    show stridedLoop _ _ _ _ _ _ = _
    rw [stridedLoop, if_pos (by rw [hpaths]; decide), stridedLoop,
      if_neg (by rw [hpaths]; decide)]
  have hm : min Engine.BLOCK_SIZE (e.params_.paths - 0) = 1 := by rw [hpaths]; decide
  rw [hl]
  unfold allBlock allSimulate
  simp only [hm, hsteps, forLoop, allStep]
  split_ifs <;>
    simp only [forLoop, nan_mul, add_nan, exp_nan, mul_nan, Function.update_same, hpay]
    <;> exact ⟨trivial, trivial, trivial⟩

/-- One path of one step and a NaN for `sqrt(dt)`: `calculateAll` returns a NaN price,
delta and gamma when the payoff of a NaN is a NaN. -/
theorem calculateAll_nan (exp sqrt : R → R) (e : Engine (Double R)) (smp : Sampler (Double R))
    (base_seed : Nat) (time_ms : Double R) (hpaths : e.params_.paths = 1)
    (hsteps : e.params_.steps = 1) (hpay : e.payoff_ nan = nan)
    (hsqrt : Double.sqrt sqrt (e.params_.expiry / e.params_.steps) = nan) :
    (calculateAll exp sqrt e smp base_seed time_ms).price = nan ∧
    (calculateAll exp sqrt e smp base_seed time_ms).delta = nan ∧
    (calculateAll exp sqrt e smp base_seed time_ms).gamma = nan := by
  unfold calculateAll
  simp only []
  rw [hsqrt, mul_nan]
  obtain ⟨h1, h2, h3⟩ := allLoop_nan exp e smp
    ((e.params_.rate - 0.5 * e.params_.volatility * e.params_.volatility)
      * (e.params_.expiry / e.params_.steps))
    e.rng_.get_df e.params_.spot (e.params_.spot + 0.01 * e.params_.spot)
    (e.params_.spot - 0.01 * e.params_.spot) hpaths hsteps hpay
  rw [h1, h2, h3]
  simp only [nan_div, nan_mul, nan_sub, nan_add, mul_nan, and_self]

theorem PayoffCall_nan (K : Double R) : PayoffCall K nan = nan := by
  unfold PayoffCall
  rw [nan_sub, max_nan_left]

theorem PayoffPut_nan (K : Double R) : PayoffPut K nan = nan := by
  unfold PayoffPut
  rw [sub_nan, max_nan_left]

theorem sqrt_dt_nan (sqrt : R → R) {expiry : R} (h : expiry < 0) :
    Double.sqrt sqrt (fin expiry / ((1 : Nat) : Double R)) = nan := by
  rw [natCast_eq, Nat.cast_one, fin_div _ one_ne_zero, div_one, sqrt_neg sqrt h]

/-- C17 fails as stated: with `expiry = -1` (`spot = 100 > 0`, `volatility = 0.2`,
`rate = 0.05`, `paths = 1`, `steps = 1`, a call struck at 100, every innovation 0),
`dt = -1`, `std::sqrt(dt)` is a NaN, so are the shocks, the three terminal values and
their payoffs, and the gamma returned by `calculateAll` is a NaN: `0 <= gamma` is
false. -/
theorem gamma_nan_of_negative_expiry :
    (calculateAll Real.exp Real.sqrt
      (IEEE.new (ofParams ⟨100, 0.2, 0.05, -1, 1, 1, DistributionType.Normal⟩)
        (PayoffCall (fin 100)) (ofRandomGen ⟨DistributionType.Normal, 4⟩))
      (ofSampler (Engine.zeroSampler ℝ)) 0 (fin 0)).gamma = nan ∧
    le 0 (calculateAll Real.exp Real.sqrt
      (IEEE.new (ofParams ⟨100, 0.2, 0.05, -1, 1, 1, DistributionType.Normal⟩)
        (PayoffCall (fin 100)) (ofRandomGen ⟨DistributionType.Normal, 4⟩))
      (ofSampler (Engine.zeroSampler ℝ)) 0 (fin 0)).gamma = false := by
  have h := (calculateAll_nan Real.exp Real.sqrt
    (IEEE.new (ofParams ⟨100, 0.2, 0.05, -1, 1, 1, DistributionType.Normal⟩)
      (PayoffCall (fin 100)) (ofRandomGen ⟨DistributionType.Normal, 4⟩))
    (ofSampler (Engine.zeroSampler ℝ)) 0 (fin 0) rfl rfl (PayoffCall_nan _)
    (sqrt_dt_nan Real.sqrt (by norm_num))).2.2
  rw [h]
  exact ⟨rfl, le_nan _⟩

/-- C17, amended. For a `PayoffCall` or a `PayoffPut` of any strike, every `spot > 0`,
`expiry >= 0`, `paths >= 1`, `steps >= 1`, every rate and volatility and every
innovation stream (all of them numbers), the gamma returned by `calculateAll` is a
number `>= 0` (over the reals): it is the gamma computed in the reals, where the payoff
is convex and the three terminal values of a path are `spot + bump`, `spot` and
`spot - bump` times the same product of shocks. -/
theorem gamma_nonneg (params : EngineParams ℝ) (rng : RandomGen ℝ) (smp : Sampler ℝ) (K : ℝ)
    (payoff : Double ℝ → Double ℝ) (base_seed : Nat) (time_ms : ℝ)
    (hpay : payoff = PayoffCall (fin K) ∨ payoff = PayoffPut (fin K))
    (hspot : 0 < params.spot) (hexpiry : 0 ≤ params.expiry) (hpaths : 1 ≤ params.paths)
    (hsteps : 1 ≤ params.steps) :
    le 0 (calculateAll Real.exp Real.sqrt
      (IEEE.new (ofParams params) payoff (ofRandomGen rng)) (ofSampler smp)
      base_seed (fin time_ms)).gamma = true ∧
    ∃ g : ℝ, (calculateAll Real.exp Real.sqrt
      (IEEE.new (ofParams params) payoff (ofRandomGen rng)) (ofSampler smp)
      base_seed (fin time_ms)).gamma = fin g ∧ 0 ≤ g ∧
      (g = (Engine.calculateAll Real.exp Real.sqrt
          (Engine.new params (QuantPricer.PayoffCall K) rng) smp base_seed time_ms).gamma ∨
        g = (Engine.calculateAll Real.exp Real.sqrt
          (Engine.new params (QuantPricer.PayoffPut K) rng) smp base_seed time_ms).gamma) := by
  have key : ∀ (pay : ℝ → ℝ),
      (∀ u d m : ℝ, u + d = 2 * m → 2 * pay m ≤ pay u + pay d) →
      (∀ x, payoff (fin x) = fin (pay x)) →
      (calculateAll Real.exp Real.sqrt
        (IEEE.new (ofParams params) payoff (ofRandomGen rng)) (ofSampler smp)
        base_seed (fin time_ms)).gamma
        = fin (Engine.calculateAll Real.exp Real.sqrt (Engine.new params pay rng) smp
          base_seed time_ms).gamma ∧
      0 ≤ (Engine.calculateAll Real.exp Real.sqrt (Engine.new params pay rng) smp
          base_seed time_ms).gamma := by
    intro pay hconv hp
    have hb := calculateAll_of Real.exp Real.sqrt (Engine.new params pay rng) payoff hp smp
      base_seed time_ms (ne_of_gt hspot) hexpiry hpaths hsteps
    refine ⟨congrArg PricingResult.gamma hb, ?_⟩
    exact Engine.calculateAll_convex_payoff Real.exp Real.sqrt (Engine.new params pay rng) smp
      base_seed time_ms hconv (le_of_lt (Real.exp_pos _))
  rcases hpay with hp | hp
  · obtain ⟨h1, h2⟩ := key (QuantPricer.PayoffCall K) (Engine.PayoffCall_midpoint K)
      (fun x => by rw [hp]; exact PayoffCall_fin K x)
    rw [h1, zero_eq]
    exact ⟨decide_eq_true h2, _, rfl, h2, Or.inl rfl⟩
  · obtain ⟨h1, h2⟩ := key (QuantPricer.PayoffPut K) (Engine.PayoffPut_midpoint K)
      (fun x => by rw [hp]; exact PayoffPut_fin K x)
    rw [h1, zero_eq]
    exact ⟨decide_eq_true h2, _, rfl, h2, Or.inr rfl⟩

/-- Witness of C17: a put struck at 100 on a spot of 100, one year to expiry. -/
theorem gamma_nonneg_witness :
    le 0 (calculateAll Real.exp Real.sqrt
      (IEEE.new (ofParams ⟨100, 0.2, 0.05, 1, 2000, 252, DistributionType.StudentT⟩)
        (PayoffPut (fin 100)) (ofRandomGen ⟨DistributionType.StudentT, 4⟩))
      (ofSampler (Engine.zeroSampler ℝ)) 7 (fin 0)).gamma = true :=
  (gamma_nonneg ⟨100, 0.2, 0.05, 1, 2000, 252, DistributionType.StudentT⟩
    ⟨DistributionType.StudentT, 4⟩ (Engine.zeroSampler ℝ) 100 (PayoffPut (fin 100)) 7 0
    (Or.inr rfl) (by norm_num) (by norm_num) (by decide) (by decide)).1

end IEEE

end QuantPricer
